import Mathlib

/-!
Verification of the meta-agent repository against its specification.

This file gives a shallow embedding of the Python sources:
  * `src/workflow/guards.py`   (guard-expression evaluator)
  * `src/meta_agent.py`        (recursive task orchestrator and reference
                                decomposer / verifier / combiner)
  * `src/workflow/compiler.py` (workflow validation, Kahn cycle check)
  * `src/workflow/executor.py` (workflow scheduler)

Python values are modelled by the closed type `PyObj`; Python dictionaries by
association lists with Python's update semantics; Python exceptions by
`Except String`.  Collaborator objects (decomposer, executor, verifier,
combiner, per-node agents) are modelled as pure, possibly-failing functions:
their internal counters and logs, and all wall-clock timing, are not modelled
because no claim depends on them.
-/

/-- Closed model of the Python values that flow through contexts, task
inputs and results: None, bools, ints, strings, lists, dicts. -/
inductive PyObj where
  | none : PyObj
  | bool (b : Bool) : PyObj
  | int (n : Int) : PyObj
  | str (s : String) : PyObj
  | list (xs : List PyObj) : PyObj
  | dict (kvs : List (String × PyObj)) : PyObj

/-- Python dictionaries are modelled as association lists with unique keys.
`dictGet` is `d.get(k)` / `d[k]` (first match). -/
def dictGet (d : List (String × PyObj)) (k : String) : Option PyObj :=
  match d with
  | [] => Option.none
  | (k', v) :: rest => if k' = k then some v else dictGet rest k

/-- Python assignment `d[k] = v`: replace in place if the key exists,
otherwise append (insertion order of Python dicts). -/
def dictSet (d : List (String × PyObj)) (k : String) (v : PyObj) :
    List (String × PyObj) :=
  match d with
  | [] => [(k, v)]
  | (k', v') :: rest =>
      if k' = k then (k', v) :: rest else (k', v') :: dictSet rest k v

/-- Python `d.update(d2)` / merging one dict into another key by key. -/
def dictMerge (d d2 : List (String × PyObj)) : List (String × PyObj) :=
  d2.foldl (fun acc kv => dictSet acc kv.1 kv.2) d

/-- Python truthiness `bool(v)` for the modelled values. -/
def truthy : PyObj → Bool
  | .none => false
  | .bool b => b
  | .int n => n ≠ 0
  | .str s => s ≠ ""
  | .list xs => ¬xs.isEmpty
  | .dict kvs => ¬kvs.isEmpty

/-! ### Python string primitives, modelled on character lists -/

/-- Python `s.split(sep)` on character lists, for a fixed non-empty
separator: non-overlapping occurrences scanned from the left.  The fuel
argument (any bound above the list length) only forces termination; it is
structural so that concrete splits reduce in the kernel. -/
def pySplitF (sep : List Char) : Nat → List Char → List (List Char)
  | 0, l => [l]
  | fuel + 1, l =>
      match l with
      | [] => [[]]
      | c :: t =>
          if sep ≠ [] ∧ sep.isPrefixOf (c :: t) then
            [] :: pySplitF sep fuel ((c :: t).drop sep.length)
          else
            match pySplitF sep fuel t with
            | [] => [[c]]
            | h :: rest => (c :: h) :: rest

/-- Python `s.split(sep)` on character lists. -/
def pySplitChars (sep l : List Char) : List (List Char) :=
  pySplitF sep (l.length + 1) l

/-- Python `s.split(sep)` on strings. -/
def pySplit (s sep : String) : List String :=
  (pySplitChars sep.data s.data).map (fun cs => String.mk cs)

/-- Python substring test `sub in s`. -/
def pyContains (s sub : String) : Bool :=
  decide (sub.data <:+: s.data)

/-- Python `s.strip()`: remove leading and trailing whitespace. -/
def pyStrip (s : String) : String :=
  String.mk (((s.data.dropWhile Char.isWhitespace).reverse.dropWhile
      Char.isWhitespace).reverse)

/-- Python `s.lower()` (ASCII case folding suffices for the guard grammar). -/
def pyLower (s : String) : String :=
  String.mk (s.data.map Char.toLower)

/-- Python `s.replace(old, new)`: split on `old` and re-join with `new`. -/
def pyReplace (s old new : String) : String :=
  String.intercalate new (pySplit s old)

/-! ### Guard evaluator (`src/workflow/guards.py`)

`_safe_eval` walks the host AST restricted to boolean operators, comparison
chains, names and constants.  The AST fragment actually interpreted by
`_eval` is modelled by `GExpr`; everything outside it raises inside
`_safe_eval` ("Unsupported expression" or a syntax error) and is therefore
modelled as a parse failure, which `evaluate_condition` turns into `false`. -/

/-- Comparison operators accepted by `_eval` (ast.Eq .. ast.GtE). -/
inductive CmpOp where
  | eq | ne | lt | le | gt | ge
deriving DecidableEq

/-- Guard-expression AST: the fragment of the host AST that `_eval`
interprets.  `boolOp true` is `and`, `boolOp false` is `or`; `compare`
carries a leftmost operand and a chain of (operator, operand) pairs. -/
inductive GExpr where
  | const (v : PyObj) : GExpr
  | name (s : String) : GExpr
  | boolOp (isAnd : Bool) (args : List GExpr) : GExpr
  | compare (first : GExpr) (rest : List (CmpOp × GExpr)) : GExpr

mutual
/-- Structural size of a modelled value, used as a fuel bound for the
value-comparison recursions below. -/
def pySize : PyObj → Nat
  | .none => 1
  | .bool _ => 1
  | .int _ => 1
  | .str _ => 1
  | .list xs => 1 + pySizeList xs
  | .dict kvs => 1 + pySizeDict kvs

def pySizeList : List PyObj → Nat
  | [] => 0
  | a :: t => 1 + pySize a + pySizeList t

def pySizeDict : List (String × PyObj) → Nat
  | [] => 0
  | (_, v) :: t => 1 + pySize v + pySizeDict t
end

/-- Numeric view of a Python value: bools are ints (True == 1). -/
def pyNum : PyObj → Option Int
  | .bool b => some (if b then 1 else 0)
  | .int n => some n
  | _ => Option.none

/-- Looking a value up in a dict yields a structurally smaller value. -/
theorem dictGet_sizeOf {d : List (String × PyObj)} {k : String} {w : PyObj}
    (h : dictGet d k = some w) : sizeOf w < sizeOf d := by
  induction d with
  | nil => simp [dictGet] at h
  | cons p rest ih =>
    obtain ⟨k', v⟩ := p
    simp only [dictGet] at h
    split at h
    · cases h
      simp
      omega
    · have := ih h
      simp
      omega

mutual
/-- Python `==` on the modelled values (never raises).  Structural fuel
keeps the recursion kernel-reducible; the wrappers below supply a fuel
bound that always exceeds the recursion depth (which shrinks the combined
value size at every step). -/
def pyEqF : Nat → PyObj → PyObj → Bool
  | 0, _, _ => false
  | fuel + 1, x, y =>
      match x, y with
      | .str a, .str b => a = b
      | .none, .none => true
      | .list a, .list b => pyEqListF fuel a b
      | .dict a, .dict b => pyEqDictF fuel a b && pyEqDictF fuel b a
      | a, b =>
          match pyNum a, pyNum b with
          | some u, some v => u = v
          | _, _ => false

/-- Python elementwise `==` on lists. -/
def pyEqListF : Nat → List PyObj → List PyObj → Bool
  | 0, _, _ => false
  | fuel + 1, x, y =>
      match x, y with
      | [], [] => true
      | a :: as', b :: bs' => pyEqF fuel a b && pyEqListF fuel as' bs'
      | _, _ => false

/-- One-sided dict inclusion: every key of `x` maps to an equal value in
`y` (Python dict equality is this in both directions). -/
def pyEqDictF : Nat → List (String × PyObj) → List (String × PyObj) → Bool
  | 0, _, _ => false
  | fuel + 1, x, y =>
      match x with
      | [] => true
      | (k, v) :: rest =>
          (match dictGet y k with
           | some w => pyEqF fuel v w
           | Option.none => false) && pyEqDictF fuel rest y
end

/-- Python `==` on the modelled values. -/
def pyEq (x y : PyObj) : Bool :=
  pyEqF (pySize x + pySize y + 1) x y

/-- Lexicographic code-point order on character lists (Python string
comparison). -/
def charListLt : List Char → List Char → Bool
  | [], [] => false
  | [], _ :: _ => true
  | _ :: _, [] => false
  | a :: t1, b :: t2 =>
      if a.toNat < b.toNat then true
      else if b.toNat < a.toNat then false
      else charListLt t1 t2

/-- Python `<` on strings. -/
def strLt (a b : String) : Bool := charListLt a.data b.data

mutual
/-- Python `<` on the modelled values; mixed types raise TypeError. -/
def pyLtF : Nat → PyObj → PyObj → Except String Bool
  | 0, _, _ => .error "fuel"
  | fuel + 1, x, y =>
      match x, y with
      | .str a, .str b => .ok (strLt a b)
      | .list a, .list b => pyLtListF fuel a b
      | a, b =>
          match pyNum a, pyNum b with
          | some u, some v => .ok (decide (u < v))
          | _, _ => .error "TypeError: unorderable types"

/-- Python lexicographic `<` on lists. -/
def pyLtListF : Nat → List PyObj → List PyObj → Except String Bool
  | 0, _, _ => .error "fuel"
  | fuel + 1, x, y =>
      match x, y with
      | [], [] => .ok false
      | [], _ :: _ => .ok true
      | _ :: _, [] => .ok false
      | a :: as', b :: bs' =>
          if pyEq a b then pyLtListF fuel as' bs'
          else pyLtF fuel a b
end

/-- Python `<` on the modelled values. -/
def pyLt (x y : PyObj) : Except String Bool :=
  pyLtF (pySize x + pySize y + 1) x y

/-- Dispatch of one comparison operator, as in the `Compare` branch of
`_eval`: `!=`, `<=`, `>`, `>=` are derived from `==` and `<` with Python
semantics. -/
def applyCmp (op : CmpOp) (a b : PyObj) : Except String Bool :=
  match op with
  | .eq => .ok (pyEq a b)
  | .ne => .ok (!pyEq a b)
  | .lt => pyLt a b
  | .le => do
      let l ← pyLt a b
      .ok (l || pyEq a b)
  | .gt => pyLt b a
  | .ge => do
      let l ← pyLt b a
      .ok (l || pyEq a b)

mutual
/-- Model of `_eval` in `_safe_eval`: names are looked up in the context
(KeyError when absent), `and`/`or` evaluate **all** operands first (the
list comprehension `values = [_eval(v) for v in node.values]`) and then
fold with Python's value-returning `and`/`or`, comparison chains evaluate
left to right and return False as soon as one link fails. -/
def evalExpr (ctx : List (String × PyObj)) : GExpr → Except String PyObj
  | .const v => .ok v
  | .name s =>
      match dictGet ctx s with
      | some v => .ok v
      | Option.none => .error ("KeyError: " ++ s)
  | .boolOp isAnd args => do
      let vs ← evalArgs ctx args
      if isAnd then
        .ok (vs.foldl (fun out v => if truthy out then v else out) (PyObj.bool true))
      else
        .ok (vs.foldl (fun out v => if truthy out then out else v) (PyObj.bool false))
  | .compare first rest => do
      let l ← evalExpr ctx first
      evalCmpRest ctx l rest

/-- Eager evaluation of all operands of a `BoolOp` node, left to right. -/
def evalArgs (ctx : List (String × PyObj)) :
    List GExpr → Except String (List PyObj)
  | [] => .ok []
  | e :: es => do
      let v ← evalExpr ctx e
      let vs ← evalArgs ctx es
      .ok (v :: vs)

/-- Comparison-chain loop of `_eval`: evaluate the next comparator, apply
the operator, return False early on the first failing link. -/
def evalCmpRest (ctx : List (String × PyObj)) (left : PyObj) :
    List (CmpOp × GExpr) → Except String PyObj
  | [] => .ok (PyObj.bool true)
  | (op, e) :: rest => do
      let right ← evalExpr ctx e
      let c ← applyCmp op left right
      if c then evalCmpRest ctx right rest else .ok (PyObj.bool false)
end

/-! ### Tokenizer and parser for the guard grammar

`evaluate_condition` hands the (stripped, lower-cased, normalized) text to
`ast.parse`.  Only the fragment `GExpr` is interpreted afterwards.  The
tokenizer below recognises a lexical fragment — ASCII names, unprefixed
decimal integer literals without leading zeros, quoted string literals
without backslashes or control characters, the six comparison operators,
parentheses, and space/tab whitespace — on which the model agrees with the
host evaluator exactly: within it, every string the model fails to parse is
one the host rejects with a SyntaxError or aborts with an unsupported node
or operator (calls, subscripts, binary/unary operators, keywords in
expression position, dangling operators, stray tokens), and both are caught
by `evaluate_condition` and produce `false`; every string the model parses
is interpreted by `_eval` with the same value (keywords are rejected as
names, matching the host's SyntaxError, and adjacent string literals are
concatenated as the host does).  Literal forms outside this lexical
fragment — float and scientific literals such as `1.5` or `1e3`,
underscored, hexadecimal or imaginary numerals, prefixed or escaped
strings, newlines inside parentheses — are valued by the host as ordinary
constants but are a lexical failure here; the model maps them to `false`,
so theorems about parse failures are stated under the hypothesis that the
tokenizer succeeds. -/

/-- Tokens of the guard grammar. -/
inductive Tok where
  | ident (s : String) : Tok
  | num (n : Int) : Tok
  | strlit (s : String) : Tok
  | lpar | rpar | opEq | opNe | opLt | opLe | opGt | opGe
deriving DecidableEq

/-- Identifier start characters (letters and underscore). -/
def isIdentStart (c : Char) : Bool := c.isAlpha || c = '_'

/-- Identifier continuation characters. -/
def isIdentChar (c : Char) : Bool := c.isAlphanum || c = '_'

/-- Single-quote character (written by code to keep apostrophes out of
the source text). -/
def squote : Char := Char.ofNat 39

/-- Numeric value of a digit string. -/
def digitsVal (l : List Char) : Nat :=
  l.foldl (fun acc c => 10 * acc + (c.toNat - 48)) 0

/-- Fuel-indexed tokenizer; `none` is a lexical error.  A decimal literal
with a leading zero, or one followed directly by `.`, a letter or an
underscore (the start of a float, scientific, underscored, hexadecimal or
imaginary numeral), a string literal interrupted by a backslash or a
control character, an identifier directly followed by a quote (a prefixed
string), and any whitespace other than space or tab are all lexical
errors: those are exactly the literal forms the host values but this model
does not. -/
def lexChars : Nat → List Char → Option (List Tok)
  | 0, _ => Option.none
  | _, [] => some []
  | fuel + 1, c :: t =>
      if c = ' ' ∨ c = '\t' then lexChars fuel t
      else if c = '(' then (lexChars fuel t).map (Tok.lpar :: ·)
      else if c = ')' then (lexChars fuel t).map (Tok.rpar :: ·)
      else if c = '=' then
        match t with
        | '=' :: t2 => (lexChars fuel t2).map (Tok.opEq :: ·)
        | _ => Option.none
      else if c = '!' then
        match t with
        | '=' :: t2 => (lexChars fuel t2).map (Tok.opNe :: ·)
        | _ => Option.none
      else if c = '<' then
        match t with
        | '=' :: t2 => (lexChars fuel t2).map (Tok.opLe :: ·)
        | _ => (lexChars fuel t).map (Tok.opLt :: ·)
      else if c = '>' then
        match t with
        | '=' :: t2 => (lexChars fuel t2).map (Tok.opGe :: ·)
        | _ => (lexChars fuel t).map (Tok.opGt :: ·)
      else if c.isDigit then
        let digits := c :: t.takeWhile Char.isDigit
        let rest := t.dropWhile Char.isDigit
        if c = '0' ∧ digits.length > 1 then Option.none
        else
          match rest with
          | d :: _ =>
              if d = '.' ∨ d = '_' ∨ d.isAlpha then Option.none
              else
                (lexChars fuel rest).map
                  (Tok.num (Int.ofNat (digitsVal digits)) :: ·)
          | [] =>
              (lexChars fuel rest).map
                (Tok.num (Int.ofNat (digitsVal digits)) :: ·)
      else if c = squote ∨ c = '"' then
        let body := t.takeWhile (fun d => d ≠ c ∧ d ≠ '\\' ∧ ' ' ≤ d)
        let rest := t.dropWhile (fun d => d ≠ c ∧ d ≠ '\\' ∧ ' ' ≤ d)
        match rest with
        | d :: t2 => if d = c then (lexChars fuel t2).map (Tok.strlit (String.mk body) :: ·)
                     else Option.none
        | [] => Option.none
      else if isIdentStart c then
        let body := c :: t.takeWhile isIdentChar
        let rest := t.dropWhile isIdentChar
        match rest with
        | d :: _ =>
            if d = squote ∨ d = '"' then Option.none
            else (lexChars fuel rest).map (Tok.ident (String.mk body) :: ·)
        | [] => (lexChars fuel rest).map (Tok.ident (String.mk body) :: ·)
      else Option.none

/-- Tokenize a guard string. -/
def lexGuard (s : String) : Option (List Tok) :=
  lexChars (s.data.length + 1) s.data

/-- Wrap a nonempty operand list as a `BoolOp` node (a single operand is
returned unwrapped, as the host parser only builds `BoolOp` for two or
more operands). -/
def mkBoolOp (isAnd : Bool) (args : List GExpr) : GExpr :=
  match args with
  | [e] => e
  | _ => GExpr.boolOp isAnd args

/-- Comparison operator carried by a token, if any. -/
def tokCmp : Tok → Option CmpOp
  | .opEq => some .eq
  | .opNe => some .ne
  | .opLt => some .lt
  | .opLe => some .le
  | .opGt => some .gt
  | .opGe => some .ge
  | _ => Option.none

/-- The lower-case Python keywords.  In expression position every one of
them is a `SyntaxError` for `ast.parse` (or, inside a larger expression,
part of a construct `_eval` aborts on), so the parser rejects them as
names.  The capitalised constants `True`/`False`/`None` never reach the
parser in their original spelling because the text is lower-cased first,
and their lower-case forms are ordinary names in the host as well. -/
def pyKeywords : List String :=
  ["and", "as", "assert", "async", "await", "break", "class", "continue",
   "def", "del", "elif", "else", "except", "finally", "for", "from",
   "global", "if", "import", "in", "is", "lambda", "nonlocal", "not",
   "or", "pass", "raise", "return", "try", "while", "with", "yield"]

/-- Adjacent string literals concatenate, as in the host language. -/
def collectStr : String → List Tok → String × List Tok
  | s, .strlit s2 :: t => collectStr (s ++ s2) t
  | s, toks => (s, toks)

mutual
/-- Primary: literal, name, or parenthesised expression.  Python keywords
are rejected as names and adjacent string literals are concatenated. -/
def parsePrimary : Nat → List Tok → Option (GExpr × List Tok)
  | 0, _ => Option.none
  | fuel + 1, toks =>
      match toks with
      | .num n :: t => some (.const (.int n), t)
      | .strlit s :: t =>
          match collectStr s t with
          | (s2, t2) => some (.const (.str s2), t2)
      | .ident s :: t =>
          if pyKeywords.contains s then Option.none else some (.name s, t)
      | .lpar :: t =>
          match parseOrLevel fuel t with
          | some (e, .rpar :: t2) => some (e, t2)
          | _ => Option.none
      | _ => Option.none

/-- Comparison level: a primary followed by a (possibly empty) chain of
comparison operators and primaries. -/
def parseCmpLevel : Nat → List Tok → Option (GExpr × List Tok)
  | 0, _ => Option.none
  | fuel + 1, toks => do
      let (e, r) ← parsePrimary fuel toks
      parseCmpTail fuel e [] r

/-- Chain accumulator for the comparison level. -/
def parseCmpTail (fuel : Nat) (first : GExpr) (acc : List (CmpOp × GExpr)) :
    List Tok → Option (GExpr × List Tok)
  | toks =>
      match fuel with
      | 0 => Option.none
      | fuel + 1 =>
          match toks with
          | tk :: t =>
              match tokCmp tk with
              | some op => do
                  let (e2, r2) ← parsePrimary fuel t
                  parseCmpTail fuel first (acc ++ [(op, e2)]) r2
              | Option.none =>
                  some (if acc.isEmpty then first else .compare first acc, toks)
          | [] => some (if acc.isEmpty then first else .compare first acc, toks)

/-- Conjunction level: comparison operands separated by `and`. -/
def parseAndLevel : Nat → List Tok → Option (GExpr × List Tok)
  | 0, _ => Option.none
  | fuel + 1, toks => do
      let (e, r) ← parseCmpLevel fuel toks
      parseAndTail fuel [e] r

/-- Operand accumulator for the conjunction level. -/
def parseAndTail (fuel : Nat) (acc : List GExpr) :
    List Tok → Option (GExpr × List Tok)
  | toks =>
      match fuel with
      | 0 => Option.none
      | fuel + 1 =>
          match toks with
          | .ident "and" :: t => do
              let (e, r) ← parseCmpLevel fuel t
              parseAndTail fuel (acc ++ [e]) r
          | _ => some (mkBoolOp true acc, toks)

/-- Disjunction level: conjunction operands separated by `or`. -/
def parseOrLevel : Nat → List Tok → Option (GExpr × List Tok)
  | 0, _ => Option.none
  | fuel + 1, toks => do
      let (e, r) ← parseAndLevel fuel toks
      parseOrTail fuel [e] r

/-- Operand accumulator for the disjunction level. -/
def parseOrTail (fuel : Nat) (acc : List GExpr) :
    List Tok → Option (GExpr × List Tok)
  | toks =>
      match fuel with
      | 0 => Option.none
      | fuel + 1 =>
          match toks with
          | .ident "or" :: t => do
              let (e, r) ← parseAndLevel fuel t
              parseOrTail fuel (acc ++ [e]) r
          | _ => some (mkBoolOp false acc, toks)
end

/-- Parse a full guard expression (model of `ast.parse(expr, mode="eval")`
restricted to the interpreted fragment). -/
def parseGuardText (s : String) : Option GExpr := do
  let toks ← lexGuard s
  match parseOrLevel (4 * toks.length + 8) toks with
  | some (e, []) => some e
  | _ => Option.none

/-- Evaluation of a parsed guard AST with the `except Exception` of
`evaluate_condition`: a successful value is converted with `bool(...)`,
any raised error yields `false`. -/
def evalCondAst (context : List (String × PyObj)) (ast : GExpr) : Bool :=
  match evalExpr context ast with
  | .ok v => truthy v
  | .error _ => false

/-- Model of `evaluate_condition` in `src/workflow/guards.py`: strip and
lower-case, special-case "true" and "", normalize `&&`/`||`, then parse and
evaluate, turning every failure into `false`. -/
def evaluate_condition (expression : String)
    (context : List (String × PyObj)) : Bool :=
  let e := pyLower (pyStrip expression)
  if e = "true" ∨ e = "" then true
  else
    let e2 := pyReplace (pyReplace e "&&" " and ") "||" " or "
    match parseGuardText e2 with
    | some ast => evalCondAst context ast
    | Option.none => false

/-! ### Task model (`src/meta_agent.py`)

Python attribute `None` and value `None` are both modelled by `PyObj.none`,
so `Task.result` is a `PyObj` that is `.none` until assigned.  The
`sub_tasks` back-pointer written by `solve` is not modelled: no claim reads
it back.  `outputs` and `guard_conditions` are not dataclass fields in the
source; they are attached dynamically by the declarative loader and read
with `getattr` defaults, hence their defaults here.  Wall-clock
`execution_time` and the timestamped log are not modelled.  The namespace
`MA` avoids a clash with the core `Task` type. -/

namespace MA

/-- Dataclass `Task` of `src/meta_agent.py`. -/
structure Task where
  id : String
  description : String
  inputs : List (String × PyObj) := []
  params : List (String × PyObj) := []
  is_atomic : Bool := false
  verification_criteria : List String := []
  parent_id : Option String := Option.none
  status : String := "pending"
  result : PyObj := PyObj.none
  verification_log : List String := []
  outputs : List (String × PyObj) := []
  guard_conditions : Option (List String) := Option.none

/-- Result of `TaskDecomposer.decompose` (class `DecompositionResult`). -/
structure DecompositionResult where
  sub_tasks : List Task
  decomposition_strategy : String
  recombination_plan : String
  reasoning : String
  alternatives : Option (List (List Task)) := Option.none

/-- Dict returned by `TaskVerifier.verify` (the `verification_id` counter
is orchestration-irrelevant state and is not modelled). -/
structure Verification where
  valid : Bool
  log : List String

/-- Dict returned by `MetaAgent.solve` / `_execute_atomic_task`: `result`,
`verified`, `execution_tree` (the mutated task object), and the optional
`verification` / `error` keys.  The `logs` key (timestamped log list) is
not modelled. -/
structure SolveOut where
  task : Task
  result : PyObj
  verified : Bool
  verification : Option Verification := Option.none
  error : Option String := Option.none

/-- Collaborators stored by `MetaAgent.__init__`: decomposer, executor,
verifier, combiner, modelled as pure, possibly-raising functions. -/
structure MetaAgent where
  decomposer : Task → Nat → Except String DecompositionResult
  executor : Task → Except String PyObj
  verifier : Task → Except String Verification
  combiner : Task → List Task → List SolveOut → String → Except String PyObj

/-- Model of `MetaAgent.__init__`: the `max_depth` parameter is accepted
and discarded (the source never assigns `self.max_depth`). -/
def MetaAgent.init (decomposer : Task → Nat → Except String DecompositionResult)
    (executor : Task → Except String PyObj)
    (verifier : Task → Except String Verification)
    (combiner : Task → List Task → List SolveOut → String → Except String PyObj)
    (max_depth : Nat) : MetaAgent :=
  ⟨decomposer, executor, verifier, combiner⟩

/-- Model of `MetaAgent._execute_atomic_task`: pending → executing →
completed/failed, verify on success, `verified` status only if valid; any
executor or verifier exception is caught and turned into a failed,
unverified result carrying the message. -/
def executeAtomic (ag : MetaAgent) (task : Task) : SolveOut :=
  let t1 := { task with status := "executing" }
  match ag.executor t1 with
  | .error e => ⟨{ t1 with status := "failed" }, PyObj.none, false, Option.none, some e⟩
  | .ok res =>
      let t2 := { t1 with result := res, status := "completed" }
      match ag.verifier t2 with
      | .error e => ⟨{ t2 with status := "failed" }, PyObj.none, false, Option.none, some e⟩
      | .ok ver =>
          let t3 := { t2 with
                      verification_log := ver.log
                      status := if ver.valid then "verified" else "completed" }
          ⟨t3, res, ver.valid, some ver, Option.none⟩

/-- Resolution of one input entry against a context (body of the loop
`for k, v in list(sub_task.inputs.items())` in `solve`). -/
def resolveOne (ctx : List (String × PyObj)) (kv : String × PyObj) :
    String × PyObj :=
  match kv.2 with
  | .str s =>
      match dictGet ctx s with
      | some v => (kv.1, v)
      | Option.none => kv
  | .none =>
      match dictGet ctx kv.1 with
      | some v => (kv.1, v)
      | Option.none => kv
  | _ => kv

/-- Input-placeholder resolution performed by `solve` on each sub-task
before solving it: a string value naming a context key is replaced by the
context value; a `None` value whose key exists in context is pulled by
name. -/
def resolveInputs (t : Task) (ctx : List (String × PyObj)) : Task :=
  { t with inputs := t.inputs.map (resolveOne ctx) }

/-- Mapping of one declared `outputs` entry (parent key ← child key) into
the context, from the `for parent_key, child_key in outputs_map.items()`
loop of `solve`. -/
def mapOutputEntry (kvs : List (String × PyObj))
    (acc : List (String × PyObj)) (pk : String × PyObj) :
    List (String × PyObj) :=
  match pk.2 with
  | .str childKey =>
      match dictGet kvs childKey with
      | some v => dictSet acc pk.1 v
      | Option.none => acc
  | _ => acc

/-- Context update performed by `solve` after a sub-task produced a dict
result: first map declared `outputs` entries, then merge all raw result
keys. -/
def mergeOutputs (subT : Task) (res : PyObj) (ctx : List (String × PyObj)) :
    List (String × PyObj) :=
  match res with
  | .dict kvs => dictMerge (subT.outputs.foldl (mapOutputEntry kvs) ctx) kvs
  | _ => ctx

/-- Outcome of the sequential sub-task loop of `solve`: either an abort at
the first sub-task that failed verification, or the mutated sub-task list,
the collected sub-results and the final context. -/
inductive SeqOutcome where
  | aborted (failedId : String) : SeqOutcome
  | done (tasks : List Task) (results : List SolveOut)
      (ctx : List (String × PyObj)) : SeqOutcome

/-- Sequential sub-task loop of `solve` (step 5): resolve inputs, skip the
sub-task when it carries guard conditions none of which evaluates true,
solve it, merge outputs into the context, abort on the first verification
failure. -/
def runSubTasks (solveSub : Task → SolveOut) :
    List Task → List (String × PyObj) → SeqOutcome
  | [], ctx => .done [] [] ctx
  | st :: rest, ctx =>
      let st' := resolveInputs st ctx
      let guards := st'.guard_conditions.getD []
      if ¬guards.isEmpty ∧ ¬guards.any (fun g => evaluate_condition g ctx) then
        match runSubTasks solveSub rest ctx with
        | .aborted i => .aborted i
        | .done ts rs ctx' => .done (st' :: ts) rs ctx'
      else
        let r := solveSub st'
        let ctx' := mergeOutputs st' r.result ctx
        if r.verified then
          match runSubTasks solveSub rest ctx' with
          | .aborted i => .aborted i
          | .done ts rs ctx'' => .done (r.task :: ts) (r :: rs) ctx''
        else .aborted st'.id

/-- Per-alternative sub-task loop of the choice branch (step 3): like the
sequential loop but without guard handling, with a local context seeded
from the parent inputs; stops at the first unverified sub-task. -/
def runPlanLoop (solveSub : Task → SolveOut) :
    List Task → List (String × PyObj) → (List SolveOut × Bool)
  | [], _ => ([], false)
  | st :: rest, ctx =>
      let st' := resolveInputs st ctx
      let r := solveSub st'
      if r.verified then
        let ctx' := mergeOutputs st' r.result ctx
        let (rs, failed) := runPlanLoop solveSub rest ctx'
        (r :: rs, failed)
      else ([r], true)

/-- Choice-fallback loop of `solve` (step 3): try each alternative in list
order; the first whose sub-tasks all verify and whose combined result
verifies is returned with `verified = true`; combiner/verifier exceptions
become failed results (the enclosing `except` of `solve`); when all
alternatives are exhausted the task fails with
"All choice alternatives failed".  The running `task` argument carries the
in-place mutations (`task.result` is overwritten by every combined
attempt). -/
def tryAlternatives (ag : MetaAgent) (solveSub : Task → SolveOut)
    (task : Task) (plan : String) : List (List Task) → SolveOut
  | [] => ⟨{ task with status := "failed" }, PyObj.none, false, Option.none,
      some "All choice alternatives failed"⟩
  | alt :: rest =>
      let pr := runPlanLoop solveSub alt task.inputs
      if pr.2 then tryAlternatives ag solveSub task plan rest
      else
        match ag.combiner task (pr.1.map (·.task)) pr.1 plan with
        | .error e => ⟨{ task with status := "failed" }, PyObj.none, false, Option.none, some e⟩
        | .ok combined =>
            let t2 := { task with result := combined }
            match ag.verifier t2 with
            | .error e => ⟨{ t2 with status := "failed" }, PyObj.none, false, Option.none, some e⟩
            | .ok ver =>
                if ver.valid then
                  ⟨{ t2 with status := "verified" }, combined, true, some ver, Option.none⟩
                else tryAlternatives ag solveSub t2 plan rest

/-- Model of `MetaAgent.solve`.  The fuel argument only bounds the
recursion depth (the source recurses without any bound; a Python
`RecursionError` would be caught by the same `except Exception` clause,
which is what the fuel-exhausted branch mirrors).  Every collaborator
exception is caught and becomes a failed, unverified result. -/
def solve : Nat → MetaAgent → Task → Nat → SolveOut
  | 0, _, task, _ =>
      ⟨{ task with status := "failed" }, PyObj.none, false, Option.none,
        some "maximum recursion depth exceeded"⟩
  | f + 1, ag, task, depth =>
      if task.is_atomic then executeAtomic ag task
      else
        match ag.decomposer task depth with
        | .error e => ⟨{ task with status := "failed" }, PyObj.none, false, Option.none, some e⟩
        | .ok dec =>
            if dec.decomposition_strategy = "choice" ∧ ¬(dec.alternatives.getD []).isEmpty then
              tryAlternatives ag (fun t => solve f ag t (depth + 2)) task
                dec.recombination_plan (dec.alternatives.getD [])
            else if dec.sub_tasks.isEmpty then
              match task.result with
              | .none =>
                  executeAtomic ag task
              | r =>
                  match ag.verifier task with
                  | .error e => ⟨{ task with status := "failed" }, PyObj.none, false, Option.none, some e⟩
                  | .ok ver =>
                      ⟨{ task with status := if ver.valid then "verified" else "completed" },
                        r, ver.valid, some ver, Option.none⟩
            else
              match runSubTasks (fun t => solve f ag t (depth + 1)) dec.sub_tasks task.inputs with
              | .aborted failedId =>
                  ⟨task, PyObj.none, false, Option.none,
                    some ("Sub-task " ++ failedId ++ " failed")⟩
              | .done tasks' results _ =>
                  match ag.combiner task tasks' results dec.recombination_plan with
                  | .error e => ⟨{ task with status := "failed" }, PyObj.none, false, Option.none, some e⟩
                  | .ok combined =>
                      let t2 := { task with result := combined, status := "completed" }
                      match ag.verifier t2 with
                      | .error e => ⟨{ t2 with status := "failed" }, PyObj.none, false, Option.none, some e⟩
                      | .ok ver => ⟨t2, combined, ver.valid, some ver, Option.none⟩

end MA

/-! ### Reference collaborators (`src/meta_agent.py`) -/

/-- Python `s.startswith(p)`. -/
def pyStartsWith (s p : String) : Bool :=
  p.data.isPrefixOf s.data

namespace MA

/-- Single-quote as a string, for Python `repr` output. -/
def sq : String := String.singleton squote

mutual
/-- Python `repr(v)` (strings get quotes). -/
def pyRepr : PyObj → String
  | .str s => sq ++ s ++ sq
  | v => pyStrAux v

/-- Helper so that `pyRepr` recurses through `pyStr` structurally. -/
def pyStrAux : PyObj → String
  | .none => "None"
  | .bool b => if b then "True" else "False"
  | .int n => toString n
  | .str s => s
  | .list xs => "[" ++ pyReprList xs ++ "]"
  | .dict kvs => "\x7b" ++ pyReprDict kvs ++ "\x7d"

def pyReprList : List PyObj → String
  | [] => ""
  | [a] => pyRepr a
  | a :: t => pyRepr a ++ ", " ++ pyReprList t

def pyReprDict : List (String × PyObj) → String
  | [] => ""
  | [(k, v)] => sq ++ k ++ sq ++ ": " ++ pyRepr v
  | (k, v) :: t => sq ++ k ++ sq ++ ": " ++ pyRepr v ++ ", " ++ pyReprDict t
end

/-- List comprehension of the merge branch of `ResultCombiner.combine`
(`r["result"].get(key, "")` for each sub-result): raises AttributeError
when a `result` is not a dict (`None.get` in the source). -/
def combGather (sub_results : List SolveOut) (key : String) :
    Except String (List PyObj) :=
  match sub_results with
  | [] => .ok []
  | r :: rest => do
      let v ← (match r.result with
               | .dict kvs => Except.ok ((dictGet kvs key).getD (.str ""))
               | _ => Except.error "AttributeError: object has no attribute get")
      let tail ← combGather rest key
      .ok (v :: tail)

/-- Model of `ResultCombiner.combine`: empty sub-results give an error
dict; plans starting with "Chain" return the last sub-result's `result`;
plans starting with "Merge" build the aggregate dict (raising
AttributeError if some sub-result's `result` is not a dict, as `.get` does
in the source); anything else returns the first sub-result's `result`. -/
def resultCombinerCombine (task : Task) (sub_tasks : List Task)
    (sub_results : List SolveOut) (recombination_plan : String) :
    Except String PyObj :=
  match sub_results with
  | [] => .ok (.dict [("error", .str "No sub-results to combine")])
  | r0 :: rest =>
      if pyStartsWith recombination_plan "Chain" then
        .ok ((r0 :: rest).getLast (by simp)).result
      else if pyStartsWith recombination_plan "Merge" then do
        let ids ← combGather (r0 :: rest) "task_id"
        let outs ← combGather (r0 :: rest) "output"
        .ok (.dict [("combined_from", .list ids), ("outputs", .list outs),
          ("all_verified", .bool ((r0 :: rest).all (·.verified)))])
      else .ok r0.result

end MA

namespace MA

/-- Keyword list of `TaskDecomposer._is_simple_enough`. -/
def simple_keywords : List String :=
  ["calculate", "fetch", "validate", "check", "send", "get", "set"]

/-- Model of `TaskDecomposer._is_simple_enough`: atomic tasks are simple;
otherwise the description must contain a single-action keyword and no
" and " separator (the source tests `desc_lower.count(' and ') == 0`,
which is equivalent to the absence of the substring). -/
def is_simple_enough (task : Task) : Bool :=
  task.is_atomic ||
    (let desc_lower := pyLower task.description
     simple_keywords.any (fun kw =>
       pyContains desc_lower kw && !pyContains desc_lower " and "))

/-- Sub-task constructed by `TaskDecomposer._heuristic_decompose` for the
i-th split segment. -/
def splitSubTask (task : Task) (i : Nat) (part : String)
    (inputs : List (String × PyObj)) : Task :=
  { id := task.id ++ "." ++ toString (i + 1)
    description := pyStrip part
    inputs := inputs
    is_atomic := true
    parent_id := some task.id
    verification_criteria := [] }

/-- Model of `TaskDecomposer._heuristic_decompose`: split on " and "
(all segments share the parent inputs), else on " then " (only the first
segment inherits them), else no sub-tasks.  The containment test is on the
lower-cased description while the split is on the original text, exactly
as in the source. -/
def heuristic_decompose (task : Task) : List Task :=
  let desc := pyLower task.description
  if pyContains desc " and " then
    (pySplit task.description " and ").enum.map
      (fun ip => splitSubTask task ip.1 ip.2 task.inputs)
  else if pyContains desc " then " then
    (pySplit task.description " then ").enum.map
      (fun ip => splitSubTask task ip.1 ip.2 (if ip.1 = 0 then task.inputs else []))
  else []

/-- Model of `TaskDecomposer._determine_strategy`. -/
def determine_strategy (sub_tasks : List Task) : String :=
  if sub_tasks.isEmpty then "none" else "sequential"

/-- Model of `TaskDecomposer._create_recombination_plan`. -/
def create_recombination_plan (strategy : String) : String :=
  if strategy = "sequential" then
    "Chain: pass output of each task as input to next, return final output"
  else if strategy = "parallel" then
    "Merge: combine all outputs into single result dict"
  else "Direct: return single result"

/-- Model of `TaskDecomposer.decompose` (the mutable
`decomposition_history` diagnostic list is not modelled). -/
def taskDecomposerDecompose (task : Task) (depth : Nat) : DecompositionResult :=
  if is_simple_enough task then
    ⟨[], "none", "direct", "Task is already atomic", Option.none⟩
  else
    let sub_tasks := heuristic_decompose task
    let strategy := determine_strategy sub_tasks
    ⟨sub_tasks, strategy, create_recombination_plan strategy,
      "Decomposed into " ++ toString sub_tasks.length ++ " sub-tasks using " ++
        strategy ++ " strategy", Option.none⟩

end MA

/-! ## Claim theorems -/

/-- Truthiness of Python `a or b` (value-returning). -/
theorem truthy_orStep (va vb : PyObj) :
    truthy (if truthy va then va else vb) = (truthy va || truthy vb) := by
  cases h : truthy va <;> simp [h]

/-- Truthiness of Python `a and b` (value-returning). -/
theorem truthy_andStep (va vb : PyObj) :
    truthy (if truthy va then vb else va) = (truthy va && truthy vb) := by
  cases h : truthy va <;> simp [h]

/-- Claim C1 (amended): the guard evaluator treats `and`/`or` eagerly, not
with short-circuit evaluation: a `BoolOp` node first evaluates **all**
operands; when both operand evaluations succeed the result is the standard
left-to-right boolean combination, but when either operand evaluation
fails (for example an undefined name on the right of an `or` whose left
operand is true) the whole evaluation fails and the guard returns false.
In particular "1 == 1 or undefined == 2" on the empty context evaluates to
false, and "0 == 1 and undefined == 2" to false. -/
theorem C1_boolop_eager_thm :
    (∀ (ctx : List (String × PyObj)) (a b : GExpr),
      evalCondAst ctx (GExpr.boolOp false [a, b]) =
        (match evalExpr ctx a, evalExpr ctx b with
         | .ok va, .ok vb => truthy va || truthy vb
         | _, _ => false)) ∧
    (∀ (ctx : List (String × PyObj)) (a b : GExpr),
      evalCondAst ctx (GExpr.boolOp true [a, b]) =
        (match evalExpr ctx a, evalExpr ctx b with
         | .ok va, .ok vb => truthy va && truthy vb
         | _, _ => false)) ∧
    evaluate_condition "1 == 1 or undefined == 2" [] = false ∧
    evaluate_condition "0 == 1 and undefined == 2" [] = false := by
  refine ⟨?_, ?_, by decide, by decide⟩
  · intro ctx a b
    cases ha : evalExpr ctx a with
    | error e =>
        cases hb : evalExpr ctx b with
        | error e2 => simp only [evalCondAst, evalExpr, evalArgs, ha, hb]; rfl
        | ok vb => simp only [evalCondAst, evalExpr, evalArgs, ha, hb]; rfl
    | ok va =>
        cases hb : evalExpr ctx b with
        | error e2 => simp only [evalCondAst, evalExpr, evalArgs, ha, hb]; rfl
        | ok vb =>
            simp only [evalCondAst, evalExpr, evalArgs, ha, hb]
            exact truthy_orStep va vb
  · intro ctx a b
    cases ha : evalExpr ctx a with
    | error e =>
        cases hb : evalExpr ctx b with
        | error e2 => simp only [evalCondAst, evalExpr, evalArgs, ha, hb]; rfl
        | ok vb => simp only [evalCondAst, evalExpr, evalArgs, ha, hb]; rfl
    | ok va =>
        cases hb : evalExpr ctx b with
        | error e2 => simp only [evalCondAst, evalExpr, evalArgs, ha, hb]; rfl
        | ok vb =>
            simp only [evalCondAst, evalExpr, evalArgs, ha, hb]
            exact truthy_andStep va vb

/-- Claim C1 counterexample: the claim asserts that an `or` whose left
operand is true returns true regardless of the right operand, with
"1 == 1 or undefined == 2" on the empty context returning true; the code
evaluates the right operand eagerly, the lookup of `undefined` raises, and
the guard returns false. -/
theorem C1_counterexample :
    evaluate_condition "1 == 1 or undefined == 2" [] = false := by decide

/-- Claim C3 (amended): the evaluator is total and fails safely — the
empty string and "true" (after trimming and case-folding) return true,
"x == 5" holds when x is bound to 5, "undefined == 5" on the empty context
returns false (the KeyError is caught), the keyword expression "if"
returns false even when the context binds "if" (a SyntaxError in the
host), as does the leading-zero literal in "007 == 7", and any expression
whose normalized text tokenizes within the modelled lexical fragment but
fails to parse returns false.  The original universal clause "any
reference to a name not bound in the context returns false" is weakened
to lookups that are actually performed: a comparison chain that fails
early skips the remaining comparators, so an expression can mention an
unbound name and still return true. -/
theorem C3_fail_safe_thm :
    (∀ ctx, evaluate_condition "" ctx = true) ∧
    (∀ ctx, evaluate_condition "true" ctx = true) ∧
    (∀ s ctx, (pyLower (pyStrip s) = "true" ∨ pyLower (pyStrip s) = "") →
        evaluate_condition s ctx = true) ∧
    evaluate_condition "x == 5" [("x", PyObj.int 5)] = true ∧
    evaluate_condition "undefined == 5" [] = false ∧
    evaluate_condition "if" [("if", PyObj.bool true)] = false ∧
    evaluate_condition "007 == 7" [] = false ∧
    (∀ s ctx toks, pyLower (pyStrip s) ≠ "true" → pyLower (pyStrip s) ≠ "" →
        lexGuard (pyReplace (pyReplace (pyLower (pyStrip s)) "&&" " and ")
          "||" " or ") = some toks →
        parseGuardText (pyReplace (pyReplace (pyLower (pyStrip s)) "&&" " and ")
          "||" " or ") = Option.none →
        evaluate_condition s ctx = false) := by
  refine ⟨fun ctx => rfl, fun ctx => rfl, ?_, by decide, by decide, by decide,
    by decide, ?_⟩
  · intro s ctx h
    simp only [evaluate_condition]
    rcases h with h | h <;> simp [h]
  · intro s ctx toks h1 h2 _ hp
    simp only [evaluate_condition]
    rw [if_neg]
    · simp [hp]
    · simp [h1, h2]

/-- Claim C3 counterexample: the claim demands that any expression
referencing a name not bound in the context return false, yet
"1 == 2 == undefined or 1 == 1" mentions the unbound name `undefined` and
evaluates to true on the empty context: the chained comparison
`1 == 2 == undefined` returns False as soon as `1 == 2` fails, the
comparator `undefined` is never looked up, and the `or` then yields
true. -/
theorem C3_counterexample :
    evaluate_condition "1 == 2 == undefined or 1 == 1" [] = true := by decide

/-- Claim C3 witness: the trimming/case-folding clause at "  TRUE  " and
the parse-failure clause at "x >" (a dangling comparison operator, which
tokenizes but does not parse). -/
theorem C3_fail_safe_witness :
    evaluate_condition "  TRUE  " [] = true ∧ evaluate_condition "x >" [] = false :=
  ⟨C3_fail_safe_thm.2.2.1 "  TRUE  " [] (by decide),
   C3_fail_safe_thm.2.2.2.2.2.2.2 "x >" [] [Tok.ident "x", Tok.opGt]
     (by decide) (by decide) rfl rfl⟩

/-- Claim C9: the `max_depth` constructor parameter never influences
`solve` — `__init__` accepts it but never stores it, and `solve` never
compares the current depth against any bound, so two orchestrators built
from the same collaborators with different `max_depth` values produce
identical results on every task, at every depth, for every recursion
budget. -/
theorem C9_max_depth_unused_thm :
    ∀ (d : MA.Task → Nat → Except String MA.DecompositionResult)
      (e : MA.Task → Except String PyObj)
      (v : MA.Task → Except String MA.Verification)
      (c : MA.Task → List MA.Task → List MA.SolveOut → String → Except String PyObj)
      (a b fuel depth : Nat) (task : MA.Task),
      MA.solve fuel (MA.MetaAgent.init d e v c a) task depth =
        MA.solve fuel (MA.MetaAgent.init d e v c b) task depth := by
  intro d e v c a b fuel depth task
  rfl

/-- Total specification-side projection used to state the merge branch:
the `key` entry of a sub-result's dict result, defaulting to "". -/
def dictField (key : String) (r : MA.SolveOut) : PyObj :=
  match r.result with
  | .dict kvs => (dictGet kvs key).getD (.str "")
  | _ => .str ""

/-- On sub-results whose results are all dicts, the merge-branch
comprehension collects exactly the per-result `key` fields. -/
theorem combGather_ok (key : String) :
    ∀ rs : List MA.SolveOut, (∀ r ∈ rs, ∃ kvs, r.result = PyObj.dict kvs) →
      MA.combGather rs key = .ok (rs.map (dictField key)) := by
  intro rs hdict
  induction rs with
  | nil => rfl
  | cons r rest ih =>
      obtain ⟨kvs, hk⟩ := hdict r (by simp)
      simp only [MA.combGather, hk]
      rw [ih (fun r' hr' => hdict r' (by simp [hr']))]
      simp [dictField, hk]
      rfl

/-- Claim C6 (amended): for every non-empty `sub_results` list,
`ResultCombiner.combine` with a plan starting with "Chain" returns the
last sub-result's `result`; with a plan starting with "Merge" it returns
the aggregate dict (source task ids, flattened outputs, `all_verified`
flag) **provided every sub-result's `result` is a dict** — otherwise the
`.get` call raises AttributeError; with any other plan it returns the
first sub-result's `result`. -/
theorem C6_combiner_thm :
    ∀ (task : MA.Task) (sub_tasks : List MA.Task) (rs : List MA.SolveOut)
      (plan : String) (h : rs ≠ []),
      (pyStartsWith plan "Chain" = true →
        MA.resultCombinerCombine task sub_tasks rs plan =
          .ok (rs.getLast h).result) ∧
      (pyStartsWith plan "Chain" = false → pyStartsWith plan "Merge" = true →
        (∀ r ∈ rs, ∃ kvs, r.result = PyObj.dict kvs) →
        MA.resultCombinerCombine task sub_tasks rs plan =
          .ok (.dict [("combined_from", .list (rs.map (dictField "task_id"))),
            ("outputs", .list (rs.map (dictField "output"))),
            ("all_verified", .bool (rs.all (·.verified)))])) ∧
      (pyStartsWith plan "Chain" = false → pyStartsWith plan "Merge" = false →
        MA.resultCombinerCombine task sub_tasks rs plan =
          .ok (rs.head h).result) := by
  intro task sub_tasks rs plan h
  match rs with
  | [] => exact absurd rfl h
  | r0 :: rest =>
      refine ⟨?_, ?_, ?_⟩
      · intro hc
        simp [MA.resultCombinerCombine, hc]
      · intro hc hm hdict
        simp only [MA.resultCombinerCombine, hc, hm]
        rw [combGather_ok "task_id" _ hdict, combGather_ok "output" _ hdict]
        rfl
      · intro hc hm
        simp [MA.resultCombinerCombine, hc, hm]

/-- Claim C6 counterexample: a merge-tagged plan over a single sub-result
whose `result` is None raises AttributeError (`None.get`) instead of
returning the aggregate object the claim promises for every non-empty
sub_results list. -/
theorem C6_counterexample :
    MA.resultCombinerCombine { id := "p", description := "d" } []
      [⟨{ id := "s", description := "d" }, PyObj.none, false, Option.none, Option.none⟩]
      "Merge: combine all outputs into single result dict" =
      .error "AttributeError: object has no attribute get" := rfl

/-- Claim C6 witness: chain returns the last result, merge aggregates two
dict results, and a direct plan returns the first result. -/
theorem C6_combiner_witness :
    MA.resultCombinerCombine { id := "p", description := "d" } []
      [⟨{ id := "a", description := "d" }, PyObj.int 1, true, Option.none, Option.none⟩,
       ⟨{ id := "b", description := "d" }, PyObj.int 2, true, Option.none, Option.none⟩]
      "Chain: pass output of each task as input to next, return final output" =
      .ok (PyObj.int 2) ∧
    MA.resultCombinerCombine { id := "p", description := "d" } []
      [⟨{ id := "a", description := "d" },
        PyObj.dict [("task_id", PyObj.str "a"), ("output", PyObj.str "oa")],
        true, Option.none, Option.none⟩]
      "Merge: combine all outputs into single result dict" =
      .ok (.dict [("combined_from", .list [PyObj.str "a"]),
        ("outputs", .list [PyObj.str "oa"]),
        ("all_verified", .bool true)]) ∧
    MA.resultCombinerCombine { id := "p", description := "d" } []
      [⟨{ id := "a", description := "d" }, PyObj.int 7, true, Option.none, Option.none⟩]
      "Direct: return single result" = .ok (PyObj.int 7) := by
  refine ⟨?_, ?_, ?_⟩
  · exact (C6_combiner_thm { id := "p", description := "d" } [] _ _ (by simp)).1 (by decide)
  · exact (C6_combiner_thm { id := "p", description := "d" } [] _ _ (by simp)).2.1
      (by decide) (by decide) (by intro r hr; exact ⟨_, by simp at hr; rw [hr]⟩)
  · exact (C6_combiner_thm { id := "p", description := "d" } [] _ _ (by simp)).2.2
      (by decide) (by decide)

/-- A list in which the separator never occurs is returned whole by the
splitter. -/
theorem pySplitF_no_sep (sep : List Char) :
    ∀ (fuel : Nat) (l : List Char), l.length < fuel → ¬(sep <:+: l) →
      pySplitF sep fuel l = [l] := by
  intro fuel
  induction fuel with
  | zero => intro l hl; omega
  | succ fuel ih =>
      intro l hl hinf
      match l with
      | [] => rfl
      | c :: t =>
          rw [pySplitF]
          rw [if_neg]
          · rw [ih t (by simp at hl ⊢; omega)
              (fun h => hinf (h.trans (List.infix_cons (List.infix_refl t))))]
          · rintro ⟨hne, hpre⟩
            exact hinf (List.IsPrefix.isInfix (List.isPrefixOf_iff_prefix.mp hpre))

/-- If splitting produces at least two segments, the separator occurs in
the list. -/
theorem infix_of_split_ge_two (sep l : List Char)
    (h : 2 ≤ (pySplitChars sep l).length) : sep <:+: l := by
  by_contra hinf
  rw [pySplitChars, pySplitF_no_sep sep (l.length + 1) l (by omega) hinf] at h
  simp at h

/-- An occurrence of a pattern that case-folding fixes survives
case-folding of the text. -/
theorem infix_map_of_infix (f : Char → Char) (sep l : List Char)
    (hf : sep.map f = sep) (h : sep <:+: l) : sep <:+: l.map f := by
  obtain ⟨s, t, rfl⟩ := h
  exact ⟨s.map f, t.map f, by simp [hf]⟩

/-- If the description splits on " and " into two or more segments, its
lower-cased form contains " and ". -/
theorem contains_lower_of_split (s : String)
    (h : 2 ≤ (pySplit s " and ").length) :
    pyContains (pyLower s) " and " = true := by
  have h2 : 2 ≤ (pySplitChars " and ".data s.data).length := by
    simpa [pySplit] using h
  have hinf := infix_of_split_ge_two _ _ h2
  have hmap : " and ".data.map Char.toLower = " and ".data := by decide
  have := infix_map_of_infix Char.toLower _ _ hmap hinf
  simpa [pyContains, pyLower] using this

/-- Claim C8: for every non-atomic task whose description splits on the
literal separator " and " into two or more segments, `decompose` returns
exactly one atomic sub-task per trimmed segment, with `parent_id` the
original task id and the parent's inputs shared, under strategy
"sequential".  (The sub-task list is exactly the enumeration of the split
segments through `splitSubTask`, whose description is the stripped
segment.) -/
theorem C8_decompose_thm :
    ∀ (task : MA.Task) (depth : Nat),
      task.is_atomic = false →
      2 ≤ (pySplit task.description " and ").length →
      (MA.taskDecomposerDecompose task depth).decomposition_strategy = "sequential" ∧
      (MA.taskDecomposerDecompose task depth).sub_tasks =
        (pySplit task.description " and ").enum.map
          (fun ip => MA.splitSubTask task ip.1 ip.2 task.inputs) ∧
      (MA.taskDecomposerDecompose task depth).sub_tasks.length =
        (pySplit task.description " and ").length ∧
      (∀ st ∈ (MA.taskDecomposerDecompose task depth).sub_tasks,
        st.is_atomic = true ∧ st.parent_id = some task.id ∧
        st.inputs = task.inputs) := by
  intro task depth hat hsplit
  have hlow : pyContains (pyLower task.description) " and " = true :=
    contains_lower_of_split task.description hsplit
  have hsimple : MA.is_simple_enough task = false := by
    simp [MA.is_simple_enough, hat, MA.simple_keywords, hlow]
  have hdec : MA.heuristic_decompose task =
      (pySplit task.description " and ").enum.map
        (fun ip => MA.splitSubTask task ip.1 ip.2 task.inputs) := by
    simp [MA.heuristic_decompose, hlow]
  have hne : ¬((pySplit task.description " and ").enum.map
      (fun ip => MA.splitSubTask task ip.1 ip.2 task.inputs)).isEmpty = true := by
    simp [List.isEmpty_iff]
    intro hcontra
    rw [hcontra] at hsplit
    simp at hsplit
  refine ⟨?_, ?_, ?_, ?_⟩
  · simp [MA.taskDecomposerDecompose, hsimple, hdec, MA.determine_strategy, hne]
  · simp [MA.taskDecomposerDecompose, hsimple, hdec]
  · simp [MA.taskDecomposerDecompose, hsimple, hdec]
  · intro st hst
    simp only [MA.taskDecomposerDecompose, hsimple, if_neg, Bool.false_eq_true,
      not_false_eq_true, hdec] at hst
    simp only [List.mem_map] at hst
    obtain ⟨ip, _, rfl⟩ := hst
    exact ⟨rfl, rfl, rfl⟩

/-- Claim C8 witness: "alpha and beta and gamma" yields three atomic
sub-tasks with the parent id and shared inputs under strategy
"sequential". -/
theorem C8_decompose_witness :
    (MA.taskDecomposerDecompose
        { id := "t", description := "alpha and beta and gamma",
          inputs := [("x", PyObj.int 1)] } 0).decomposition_strategy =
      "sequential" ∧
    (MA.taskDecomposerDecompose
        { id := "t", description := "alpha and beta and gamma",
          inputs := [("x", PyObj.int 1)] } 0).sub_tasks.length = 3 ∧
    (∀ st ∈ (MA.taskDecomposerDecompose
        { id := "t", description := "alpha and beta and gamma",
          inputs := [("x", PyObj.int 1)] } 0).sub_tasks,
      st.is_atomic = true ∧ st.parent_id = some "t" ∧
        st.inputs = [("x", PyObj.int 1)]) := by
  have h := C8_decompose_thm
    { id := "t", description := "alpha and beta and gamma",
      inputs := [("x", PyObj.int 1)] } 0 rfl (by decide)
  exact ⟨h.1, by rw [h.2.2.1]; decide, h.2.2.2⟩

/-- Claim C4: every decomposer, executor, or combiner exception raised
during `solve` is caught inside `solve`: the task's status becomes
"failed" and the returned record carries result = None, verified = false,
and the exception's message in `error` — nothing propagates.  The four
conjuncts cover a decomposer error, an executor error on an atomic task,
a combiner error on the sequential path, and a combiner error inside the
choice loop. -/
theorem C4_exceptions_thm :
    ∀ (f depth : Nat) (ag : MA.MetaAgent) (task : MA.Task) (msg : String),
      (task.is_atomic = false →
        ag.decomposer task depth = .error msg →
        MA.solve (f + 1) ag task depth =
          ⟨{ task with status := "failed" }, PyObj.none, false, Option.none, some msg⟩) ∧
      (task.is_atomic = true →
        ag.executor { task with status := "executing" } = .error msg →
        MA.solve (f + 1) ag task depth =
          ⟨{ task with status := "failed" }, PyObj.none, false, Option.none, some msg⟩) ∧
      (∀ dec ts rs ctx,
        task.is_atomic = false →
        ag.decomposer task depth = .ok dec →
        ¬(dec.decomposition_strategy = "choice" ∧ ¬(dec.alternatives.getD []).isEmpty) →
        dec.sub_tasks.isEmpty = false →
        MA.runSubTasks (fun t => MA.solve f ag t (depth + 1)) dec.sub_tasks task.inputs =
          .done ts rs ctx →
        ag.combiner task ts rs dec.recombination_plan = .error msg →
        MA.solve (f + 1) ag task depth =
          ⟨{ task with status := "failed" }, PyObj.none, false, Option.none, some msg⟩) ∧
      (∀ dec alt rest,
        task.is_atomic = false →
        ag.decomposer task depth = .ok dec →
        dec.decomposition_strategy = "choice" →
        dec.alternatives = some (alt :: rest) →
        (MA.runPlanLoop (fun t => MA.solve f ag t (depth + 2)) alt task.inputs).2 = false →
        ag.combiner task
          ((MA.runPlanLoop (fun t => MA.solve f ag t (depth + 2)) alt task.inputs).1.map
            (·.task))
          ((MA.runPlanLoop (fun t => MA.solve f ag t (depth + 2)) alt task.inputs).1)
          dec.recombination_plan = .error msg →
        MA.solve (f + 1) ag task depth =
          ⟨{ task with status := "failed" }, PyObj.none, false, Option.none, some msg⟩) := by
  intro f depth ag task msg
  refine ⟨?_, ?_, ?_, ?_⟩
  · intro hat hd
    simp [MA.solve, hat, hd]
  · intro hat hexec
    rw [hat] at hexec
    simp [MA.solve, hat, MA.executeAtomic, hexec]
  · intro dec ts rs ctx hat hd hchoice hsub hrun hcomb
    simp only [MA.solve, hat, Bool.false_eq_true, if_false, hd]
    rw [if_neg hchoice, if_neg (by simp [hsub])]
    rw [hrun]
    simp [hcomb]
  · intro dec alt rest hat hd hstrat halts hplan hcomb
    simp only [MA.solve, hat, Bool.false_eq_true, if_false, hd]
    rw [if_pos ⟨hstrat, by simp [halts]⟩, halts]
    simp only [Option.getD_some, MA.tryAlternatives]
    rw [if_neg (by simp [hplan]), hcomb]
    simp [hat]

/-- Concrete parent task used by witnesses. -/
def cTask (atomic : Bool) : MA.Task :=
  { id := "w", description := "w", is_atomic := atomic }

/-- Concrete atomic sub-task used by witnesses. -/
def cSub : MA.Task := { id := "w.1", description := "s", is_atomic := true }

/-- Agent whose decomposer raises. -/
def cAgentDecFail : MA.MetaAgent :=
  ⟨fun _ _ => .error "boom", fun _ => .ok (PyObj.dict []),
   fun _ => .ok ⟨true, []⟩, fun _ _ _ _ => .ok (PyObj.dict [])⟩

/-- Agent whose executor raises. -/
def cAgentExecFail : MA.MetaAgent :=
  ⟨fun _ _ => .ok ⟨[], "none", "direct", "r", Option.none⟩,
   fun _ => .error "ebang", fun _ => .ok ⟨true, []⟩,
   fun _ _ _ _ => .ok (PyObj.dict [])⟩

/-- Agent whose combiner raises on the sequential path. -/
def cAgentCombFail : MA.MetaAgent :=
  ⟨fun _ _ => .ok ⟨[cSub], "sequential", "Chain: last", "r", Option.none⟩,
   fun _ => .ok (PyObj.dict []), fun _ => .ok ⟨true, []⟩,
   fun _ _ _ _ => .error "cfail"⟩

/-- Agent whose combiner raises inside the choice loop. -/
def cAgentChoiceCombFail : MA.MetaAgent :=
  ⟨fun _ _ => .ok ⟨[], "choice", "merge", "r", some [[cSub]]⟩,
   fun _ => .ok (PyObj.dict []), fun _ => .ok ⟨true, []⟩,
   fun _ _ _ _ => .error "cfail"⟩

/-- Claim C4 witness: each of the four exception scenarios at a concrete
agent and task. -/
theorem C4_exceptions_witness :
    MA.solve 1 cAgentDecFail (cTask false) 0 =
      ⟨{ cTask false with status := "failed" }, PyObj.none, false, Option.none, some "boom"⟩ ∧
    MA.solve 1 cAgentExecFail (cTask true) 0 =
      ⟨{ cTask true with status := "failed" }, PyObj.none, false, Option.none, some "ebang"⟩ ∧
    MA.solve 2 cAgentCombFail (cTask false) 0 =
      ⟨{ cTask false with status := "failed" }, PyObj.none, false, Option.none, some "cfail"⟩ ∧
    MA.solve 2 cAgentChoiceCombFail (cTask false) 0 =
      ⟨{ cTask false with status := "failed" }, PyObj.none, false, Option.none, some "cfail"⟩ := by
  refine ⟨?_, ?_, ?_, ?_⟩
  · exact (C4_exceptions_thm 0 0 cAgentDecFail (cTask false) "boom").1 rfl rfl
  · exact (C4_exceptions_thm 0 0 cAgentExecFail (cTask true) "ebang").2.1 rfl rfl
  · exact (C4_exceptions_thm 1 0 cAgentCombFail (cTask false) "cfail").2.2.1
      ⟨[cSub], "sequential", "Chain: last", "r", Option.none⟩ _ _ _
      rfl rfl (by decide) rfl rfl rfl
  · exact (C4_exceptions_thm 1 0 cAgentChoiceCombFail (cTask false) "cfail").2.2.2
      ⟨[], "choice", "merge", "r", some [[cSub]]⟩ [cSub] []
      rfl rfl rfl rfl rfl rfl

/-- Claim C2: the choice strategy tries alternatives strictly in list
order and returns the first verified success; if none verifies the task
fails with "All choice alternatives failed".  Conjunct (A) links `solve`
to the fallback loop when the decomposition is a choice with non-empty
alternatives; (B) states that with every earlier alternative failing on a
sub-task, the first alternative whose sub-tasks all verify, whose
combination succeeds and whose combined result verifies is returned with
verified = true; (C) states that when every alternative fails on a
sub-task the loop returns result = None, verified = false, error
"All choice alternatives failed" and status "failed"; (D) states that an
alternative whose combination does not verify is skipped, the loop
continuing with the next alternative (the task keeping the overwritten
`result` field). -/
theorem C2_choice_thm :
    (∀ (f depth : Nat) (ag : MA.MetaAgent) (task : MA.Task)
        (dec : MA.DecompositionResult),
      task.is_atomic = false →
      ag.decomposer task depth = .ok dec →
      dec.decomposition_strategy = "choice" →
      dec.alternatives.getD [] ≠ [] →
      MA.solve (f + 1) ag task depth =
        MA.tryAlternatives ag (fun t => MA.solve f ag t (depth + 2)) task
          dec.recombination_plan (dec.alternatives.getD [])) ∧
    (∀ (ag : MA.MetaAgent) (solveSub : MA.Task → MA.SolveOut) (task : MA.Task)
        (plan : String) (pre : List (List MA.Task)) (alt : List MA.Task)
        (rest : List (List MA.Task)) (c : PyObj) (ver : MA.Verification),
      (∀ a ∈ pre, (MA.runPlanLoop solveSub a task.inputs).2 = true) →
      (MA.runPlanLoop solveSub alt task.inputs).2 = false →
      ag.combiner task ((MA.runPlanLoop solveSub alt task.inputs).1.map (·.task))
        (MA.runPlanLoop solveSub alt task.inputs).1 plan = .ok c →
      ag.verifier { task with result := c } = .ok ver →
      ver.valid = true →
      MA.tryAlternatives ag solveSub task plan (pre ++ alt :: rest) =
        ⟨{ task with result := c, status := "verified" }, c, true, some ver,
          Option.none⟩) ∧
    (∀ (ag : MA.MetaAgent) (solveSub : MA.Task → MA.SolveOut) (task : MA.Task)
        (plan : String) (alts : List (List MA.Task)),
      (∀ a ∈ alts, (MA.runPlanLoop solveSub a task.inputs).2 = true) →
      MA.tryAlternatives ag solveSub task plan alts =
        ⟨{ task with status := "failed" }, PyObj.none, false, Option.none,
          some "All choice alternatives failed"⟩) ∧
    (∀ (ag : MA.MetaAgent) (solveSub : MA.Task → MA.SolveOut) (task : MA.Task)
        (plan : String) (alt : List MA.Task) (rest : List (List MA.Task))
        (c : PyObj) (ver : MA.Verification),
      (MA.runPlanLoop solveSub alt task.inputs).2 = false →
      ag.combiner task ((MA.runPlanLoop solveSub alt task.inputs).1.map (·.task))
        (MA.runPlanLoop solveSub alt task.inputs).1 plan = .ok c →
      ag.verifier { task with result := c } = .ok ver →
      ver.valid = false →
      MA.tryAlternatives ag solveSub task plan (alt :: rest) =
        MA.tryAlternatives ag solveSub { task with result := c } plan rest) := by
  refine ⟨?_, ?_, ?_, ?_⟩
  · intro f depth ag task dec hat hd hstrat halts
    simp only [MA.solve, hat, Bool.false_eq_true, if_false, hd]
    rw [if_pos ⟨hstrat, by simpa [List.isEmpty_iff] using halts⟩]
  · intro ag solveSub task plan pre alt rest c ver hpre hplan hcomb hver hvalid
    induction pre with
    | nil =>
        simp only [List.nil_append, MA.tryAlternatives]
        rw [if_neg (by simp [hplan])]
        simp [hcomb, hver, hvalid]
    | cons p pre' ih =>
        have hp := hpre p (by simp)
        simp only [List.cons_append, MA.tryAlternatives]
        rw [if_pos (by simp [hp])]
        exact ih (fun a ha => hpre a (by simp [ha]))
  · intro ag solveSub task plan alts hall
    induction alts with
    | nil => rfl
    | cons a rest ih =>
        have hp := hall a (by simp)
        simp only [MA.tryAlternatives]
        rw [if_pos (by simp [hp])]
        exact ih (fun a' ha' => hall a' (by simp [ha']))
  · intro ag solveSub task plan alt rest c ver hplan hcomb hver hvalid
    simp only [MA.tryAlternatives]
    rw [if_neg (by simp [hplan])]
    simp [hcomb, hver, hvalid]

/-- Concrete failing atomic sub-task (its executor call raises). -/
def cBad : MA.Task := { id := "bad", description := "b", is_atomic := true }

/-- Concrete succeeding atomic sub-task. -/
def cGood : MA.Task := { id := "good", description := "g", is_atomic := true }

/-- Executor failing exactly on the task with id "bad". -/
def cExec : MA.Task → Except String PyObj := fun t =>
  if t.id = "bad" then .error "bad exec"
  else .ok (PyObj.dict [("out", PyObj.int 1)])

/-- Choice agent with a failing first alternative and a succeeding second
alternative. -/
def cChoiceAgent : MA.MetaAgent :=
  ⟨fun _ _ => .ok ⟨[], "choice", "direct", "r", some [[cBad], [cGood]]⟩,
   cExec, fun _ => .ok ⟨true, []⟩,
   fun _ _ _ _ => .ok (PyObj.dict [("combined", PyObj.int 2)])⟩

/-- Choice agent whose only alternative fails. -/
def cChoiceFailAgent : MA.MetaAgent :=
  ⟨fun _ _ => .ok ⟨[], "choice", "direct", "r", some [[cBad]]⟩,
   cExec, fun _ => .ok ⟨true, []⟩,
   fun _ _ _ _ => .ok (PyObj.dict [("combined", PyObj.int 2)])⟩

/-- Choice agent whose combined result fails verification (the verifier
rejects the parent task "w" but accepts sub-tasks). -/
def cChoiceUnvAgent : MA.MetaAgent :=
  ⟨fun _ _ => .ok ⟨[], "choice", "direct", "r", some [[cGood]]⟩,
   cExec, fun t => .ok ⟨decide (t.id ≠ "w"), []⟩,
   fun _ _ _ _ => .ok (PyObj.dict [("combined", PyObj.int 2)])⟩

/-- Claim C2 witness: the four conjuncts of the choice characterization at
concrete agents — the solve-to-loop link, a first verified success after a
failing alternative, the all-failed outcome, and the skip of an
unverified combination. -/
theorem C2_choice_witness :
    MA.solve 2 cChoiceAgent (cTask false) 0 =
      MA.tryAlternatives cChoiceAgent (fun t => MA.solve 1 cChoiceAgent t 2)
        (cTask false) "direct" [[cBad], [cGood]] ∧
    MA.tryAlternatives cChoiceAgent (fun t => MA.solve 1 cChoiceAgent t 2)
      (cTask false) "direct" ([[cBad]] ++ [cGood] :: []) =
      ⟨{ cTask false with
          result := PyObj.dict [("combined", PyObj.int 2)]
          status := "verified" },
        PyObj.dict [("combined", PyObj.int 2)], true, some ⟨true, []⟩,
        Option.none⟩ ∧
    MA.tryAlternatives cChoiceFailAgent (fun t => MA.solve 1 cChoiceFailAgent t 2)
      (cTask false) "direct" [[cBad]] =
      ⟨{ cTask false with status := "failed" }, PyObj.none, false, Option.none,
        some "All choice alternatives failed"⟩ ∧
    MA.tryAlternatives cChoiceUnvAgent (fun t => MA.solve 1 cChoiceUnvAgent t 2)
      (cTask false) "direct" [[cGood]] =
      MA.tryAlternatives cChoiceUnvAgent (fun t => MA.solve 1 cChoiceUnvAgent t 2)
        { cTask false with result := PyObj.dict [("combined", PyObj.int 2)] }
        "direct" [] := by
  refine ⟨?_, ?_, ?_, ?_⟩
  · exact C2_choice_thm.1 1 0 cChoiceAgent (cTask false)
      ⟨[], "choice", "direct", "r", some [[cBad], [cGood]]⟩ rfl rfl rfl (by simp)
  · exact C2_choice_thm.2.1 cChoiceAgent (fun t => MA.solve 1 cChoiceAgent t 2)
      (cTask false) "direct" [[cBad]] [cGood] [] (PyObj.dict [("combined", PyObj.int 2)])
      ⟨true, []⟩ (fun a ha => by rw [List.mem_singleton.mp ha]; rfl) rfl rfl rfl rfl
  · exact C2_choice_thm.2.2.1 cChoiceFailAgent
      (fun t => MA.solve 1 cChoiceFailAgent t 2) (cTask false) "direct" [[cBad]]
      (fun a ha => by rw [List.mem_singleton.mp ha]; rfl)
  · exact C2_choice_thm.2.2.2 cChoiceUnvAgent
      (fun t => MA.solve 1 cChoiceUnvAgent t 2) (cTask false) "direct" [cGood] []
      (PyObj.dict [("combined", PyObj.int 2)]) ⟨false, []⟩ rfl rfl rfl rfl

/-! ### Workflow compiler (`src/workflow/models.py`, `src/workflow/compiler.py`)

The YAML text layer is not modelled: `load_workflow` is taken from the
point where `yaml.safe_load` has produced a well-typed mapping with all
required top-level fields (the claim presupposes exactly this), so the
missing-field check of lines 13–15 is vacuously satisfied and the raw
record below carries `Option` fields where the source uses `.get`
defaults. -/

namespace WF

/-- Dataclass `Edge` (`when` defaults to "true"). -/
structure Edge where
  src : String
  dest : String
  whenGuard : String := "true"

/-- Dataclass `Node`. -/
structure Node where
  id : String
  type : String
  summary : String := ""
  params : List (String × PyObj) := []
  io_inputs : List String := []
  io_outputs : List String := []
  tests : List String := []

/-- Dataclass `Workflow`. -/
structure Workflow where
  name : String
  description : String := ""
  preconditions : List String := []
  success_criteria : List String := []
  failure_conditions : List String := []
  inputs : List String := []
  outputs : List String := []
  nodes : List Node := []
  edges : List Edge := []

/-- Parsed node mapping (`node_data` in `load_workflow`): required keys
`id`/`type`, the rest read with `.get` defaults. -/
structure RawNode where
  id : String
  type : String
  summary : Option String := Option.none
  params : Option (List (String × PyObj)) := Option.none
  io_inputs : Option (List String) := Option.none
  io_outputs : Option (List String) := Option.none
  tests : Option (List String) := Option.none

/-- Parsed edge mapping (`edge_data`): required keys `from`/`to`,
optional `when`. -/
structure RawEdge where
  fromNode : String
  toNode : String
  whenGuard : Option String := Option.none

/-- Parsed top-level workflow mapping with all required fields present
(name, inputs, nodes, edges, success_criteria, failure_conditions) and
the optional ones as read by `.get`. -/
structure RawWorkflow where
  name : String
  description : Option String := Option.none
  preconditions : Option (List String) := Option.none
  inputs : List String
  outputs : Option (List String) := Option.none
  nodes : List RawNode
  edges : List RawEdge
  success_criteria : List String
  failure_conditions : List String

/-- Node-building loop of `load_workflow`. -/
def buildNode (n : RawNode) : Node :=
  { id := n.id
    type := n.type
    summary := n.summary.getD ""
    params := n.params.getD []
    io_inputs := n.io_inputs.getD []
    io_outputs := n.io_outputs.getD []
    tests := n.tests.getD [] }

/-- Edge-building loop of `load_workflow`. -/
def buildEdge (e : RawEdge) : Edge :=
  { src := e.fromNode, dest := e.toNode, whenGuard := e.whenGuard.getD "true" }

/-- Workflow record built by `load_workflow` before validation. -/
def buildWorkflow (raw : RawWorkflow) : Workflow :=
  { name := raw.name
    description := raw.description.getD ""
    preconditions := raw.preconditions.getD []
    success_criteria := raw.success_criteria
    failure_conditions := raw.failure_conditions
    inputs := raw.inputs
    outputs := raw.outputs.getD []
    nodes := raw.nodes.map buildNode
    edges := raw.edges.map buildEdge }

/-! #### Kahn in-degree reduction of `_validate_workflow` -/

/-- Key list of the `indegree` dict: node ids in first-occurrence order
(duplicate ids collapse onto one dict key). -/
def uniqueKeys (l : List String) : List String :=
  l.foldl (fun acc a => if a ∈ acc then acc else acc ++ [a]) []

/-- Value of a counter in the in-degree association list (0 if absent). -/
def degGet (d : List (String × Nat)) (k : String) : Nat :=
  match d with
  | [] => 0
  | (k', v) :: rest => if k' = k then v else degGet rest k

/-- In-place update of a counter (append if absent — unreachable once
edges are validated, mirroring the dict assignment). -/
def degSet (d : List (String × Nat)) (k : String) (n : Nat) :
    List (String × Nat) :=
  match d with
  | [] => [(k, n)]
  | (k', v) :: rest =>
      if k' = k then (k', n) :: rest else (k', v) :: degSet rest k n

/-- Initial in-degree table: every id at 0, then one increment per edge
(`indegree[edge.dest] += 1`). -/
def initIndeg (ids : List String) (edges : List Edge) : List (String × Nat) :=
  edges.foldl (fun acc e => degSet acc e.dest (degGet acc e.dest + 1))
    (ids.map (fun i => (i, 0)))

/-- Adjacency list of a node (`adjacency[edge.src].append(edge.dest)`,
edge order preserved). -/
def adjOf (edges : List Edge) (v : String) : List String :=
  (edges.filter (fun e => e.src == v)).map (·.dest)

/-- One neighbor decrement of the Kahn loop: `indegree[neighbor] -= 1`,
enqueue when the counter reaches zero (pre-value exactly 1). -/
def nbStep (p : List (String × Nat) × List String) (nb : String) :
    List (String × Nat) × List String :=
  (degSet p.1 nb (degGet p.1 nb - 1),
   if degGet p.1 nb = 1 then p.2 ++ [nb] else p.2)

/-- Neighbor loop body of one Kahn iteration. -/
def processNb (ind : List (String × Nat)) (q : List String)
    (nbs : List String) : List (String × Nat) × List String :=
  nbs.foldl nbStep (ind, q)

/-- Total remaining in-degree, used as the loop variant. -/
def degSum (d : List (String × Nat)) : Nat :=
  (d.map (·.2)).sum

/-- Kahn's `while queue:` loop counting dequeued nodes.  The structural
fuel argument only forces termination; `kahnVisited` supplies a bound
strictly above the variant `degSum + |queue|`, which decreases at every
iteration. -/
def kahnLoopF (edges : List Edge) :
    Nat → List (String × Nat) → List String → Nat → Nat
  | 0, _, _, visited => visited
  | fuel + 1, ind, q, visited =>
      match q with
      | [] => visited
      | cur :: rest =>
          let p := processNb ind rest (adjOf edges cur)
          kahnLoopF edges fuel p.1 p.2 (visited + 1)

/-- Number of nodes dequeued by Kahn's in-degree reduction on a workflow
(the `visited` count of `_validate_workflow`). -/
def kahnVisited (wf : Workflow) : Nat :=
  let ids := uniqueKeys (wf.nodes.map (·.id))
  let ind := initIndeg ids wf.edges
  let q0 := (ind.filter (fun kv => kv.2 == 0)).map Prod.fst
  kahnLoopF wf.edges (degSum ind + q0.length + 1) ind q0 0

/-- Model of `_validate_workflow`: reject the first edge referencing an
unknown node, then report a cycle iff the visited count falls short of
`len(workflow.nodes)`. -/
def validate_workflow (wf : Workflow) : Except String Unit :=
  let node_ids := wf.nodes.map (·.id)
  match wf.edges.find? (fun e =>
      !(node_ids.contains e.src && node_ids.contains e.dest)) with
  | some e => .error ("Edge references unknown node: " ++ e.src ++ " -> " ++ e.dest)
  | Option.none =>
      if kahnVisited wf ≠ wf.nodes.length then
        .error "Cycle detected in Workflow DAG."
      else .ok ()

/-- Model of `load_workflow` from the point where the YAML text has been
parsed into a well-typed mapping with all required fields. -/
def load_workflow (raw : RawWorkflow) : Except String Workflow := do
  let wf := buildWorkflow raw
  match validate_workflow wf with
  | .error e => .error e
  | .ok _ => .ok wf

/-- Directed edge relation induced by the edge list. -/
def isEdgeOf (edges : List Edge) (a b : String) : Prop :=
  ∃ e ∈ edges, e.src = a ∧ e.dest = b

/-- Existence of a directed cycle: a nonempty edge path from some node
back to itself. -/
def hasCycle (edges : List Edge) : Prop :=
  ∃ (v : String) (l : List String), l ≠ [] ∧ l.getLast? = some v ∧
    List.Chain (isEdgeOf edges) v l

end WF

namespace WF

/-- Reading a counter after an update. -/
theorem degGet_degSet (d : List (String × Nat)) (k : String) (m : Nat)
    (v : String) : degGet (degSet d k m) v = if k = v then m else degGet d v := by
  induction d with
  | nil =>
      by_cases h : k = v <;> simp [degSet, degGet, h]
  | cons p rest ih =>
      obtain ⟨k', n⟩ := p
      by_cases h1 : k' = k
      · subst h1
        by_cases h2 : k' = v <;> simp [degSet, degGet, h2]
      · simp only [degSet, if_neg h1, degGet]
        by_cases h2 : k' = v
        · subst h2
          simp [if_neg (fun hh : k = k' => h1 hh.symm)]
        · rw [if_neg h2, ih]
          by_cases h3 : k = v <;> simp [h3, h2]

/-- Updating a present key preserves the key list. -/
theorem keys_degSet (d : List (String × Nat)) (k : String) (m : Nat)
    (h : k ∈ d.map Prod.fst) :
    (degSet d k m).map Prod.fst = d.map Prod.fst := by
  induction d with
  | nil => simp at h
  | cons p rest ih =>
      obtain ⟨k', n⟩ := p
      by_cases h1 : k' = k
      · subst h1
        simp [degSet]
      · simp only [List.map_cons, List.mem_cons] at h
        rcases h with h | h
        · exact absurd h.symm h1
        · simp [degSet, if_neg h1, ih h]

/-- Counter-sum bookkeeping of an update. -/
theorem degSum_degSet (d : List (String × Nat)) (k : String) (m : Nat) :
    degSum (degSet d k m) + degGet d k = degSum d + m := by
  induction d with
  | nil => simp [degSet, degGet, degSum]
  | cons p rest ih =>
      obtain ⟨k', n⟩ := p
      by_cases h1 : k' = k
      · subst h1
        simp [degSet, degGet, degSum]
        omega
      · simp [degSet, degGet, degSum, if_neg h1, h1] at ih ⊢
        omega

/-- Membership in the deduplicated key list. -/
theorem uniqueKeys_mem (l : List String) (x : String) :
    x ∈ uniqueKeys l ↔ x ∈ l := by
  have aux : ∀ (l acc : List String),
      (x ∈ l.foldl (fun acc a => if a ∈ acc then acc else acc ++ [a]) acc ↔
        x ∈ acc ∨ x ∈ l) := by
    intro l
    induction l with
    | nil => simp
    | cons a t ih =>
        intro acc
        by_cases h : a ∈ acc
        · simp only [List.foldl_cons, if_pos h, ih, List.mem_cons]
          constructor
          · rintro (hx | hx)
            · exact Or.inl hx
            · exact Or.inr (Or.inr hx)
          · rintro (hx | hx | hx)
            · exact Or.inl hx
            · exact Or.inl (hx ▸ h)
            · exact Or.inr hx
        · simp only [List.foldl_cons, if_neg h, ih, List.mem_append,
            List.mem_singleton, List.mem_cons]
          tauto
  simpa [uniqueKeys] using aux l []

/-- The deduplicated key list has no duplicates. -/
theorem uniqueKeys_nodup (l : List String) : (uniqueKeys l).Nodup := by
  have aux : ∀ (l acc : List String), acc.Nodup →
      (l.foldl (fun acc a => if a ∈ acc then acc else acc ++ [a]) acc).Nodup := by
    intro l
    induction l with
    | nil => intro acc h; simpa using h
    | cons a t ih =>
        intro acc h
        by_cases hm : a ∈ acc
        · simp only [List.foldl_cons, if_pos hm]
          exact ih acc h
        · simp only [List.foldl_cons, if_neg hm]
          refine ih (acc ++ [a]) ?_
          simp [List.nodup_append, h, hm]
  exact aux l [] List.nodup_nil

/-- On a duplicate-free list, deduplication is the identity. -/
theorem uniqueKeys_of_nodup (l : List String) (h : l.Nodup) :
    uniqueKeys l = l := by
  have aux : ∀ (l acc : List String), acc.Nodup → (acc ++ l).Nodup →
      l.foldl (fun acc a => if a ∈ acc then acc else acc ++ [a]) acc = acc ++ l := by
    intro l
    induction l with
    | nil => intro acc _ _; simp
    | cons a t ih =>
        intro acc hacc hall
        have ha : a ∉ acc := by
          intro hmem
          rw [List.nodup_append] at hall
          exact hall.2.2 hmem (by simp)
        simp only [List.foldl_cons, if_neg ha]
        rw [ih (acc ++ [a]) (by simp [List.nodup_append, hacc, ha])
          (by simpa using hall)]
        simp
  simpa [uniqueKeys] using aux l [] List.nodup_nil (by simpa using h)

/-- Reading the initial in-degree table: the number of edges into `v`. -/
theorem degGet_initIndeg (ids : List String) (edges : List Edge) (v : String) :
    degGet (initIndeg ids edges) v =
      (edges.filter (fun e => e.dest == v)).length := by
  have base : ∀ ids : List String, degGet (ids.map (fun i => (i, 0))) v = 0 := by
    intro ids
    induction ids with
    | nil => rfl
    | cons a t ih => by_cases h : a = v <;> simp [degGet, h, ih]
  have aux : ∀ (es : List Edge) (acc : List (String × Nat)),
      degGet (es.foldl (fun acc e => degSet acc e.dest (degGet acc e.dest + 1)) acc) v =
        degGet acc v + (es.filter (fun e => e.dest == v)).length := by
    intro es
    induction es with
    | nil => intro acc; simp
    | cons e es' ih =>
        intro acc
        simp only [List.foldl_cons, ih, degGet_degSet]
        by_cases h : e.dest = v
        · simp [List.filter_cons, h]
          omega
        · simp [List.filter_cons, h]
  simpa [initIndeg, base] using aux edges (ids.map (fun i => (i, 0)))

/-- Key list of the initial in-degree table, when every edge destination
is a known id. -/
theorem keys_initIndeg (ids : List String) (edges : List Edge)
    (h : ∀ e ∈ edges, e.dest ∈ ids) :
    (initIndeg ids edges).map Prod.fst = ids := by
  have base : (ids.map (fun i => (i, 0))).map Prod.fst = ids := by
    simp [List.map_map, Function.comp_def]
  have aux : ∀ (es : List Edge) (acc : List (String × Nat)),
      acc.map Prod.fst = ids → (∀ e ∈ es, e.dest ∈ ids) →
      (es.foldl (fun acc e => degSet acc e.dest (degGet acc e.dest + 1)) acc).map
        Prod.fst = ids := by
    intro es
    induction es with
    | nil => intro acc hacc _; simpa using hacc
    | cons e es' ih =>
        intro acc hacc hes
        simp only [List.foldl_cons]
        refine ih _ ?_ (fun e' he' => hes e' (by simp [he']))
        rw [keys_degSet _ _ _ (by rw [hacc]; exact hes e (by simp)), hacc]
  exact aux edges _ base h

/-- Number of edges into `v` whose source is not yet processed: the value
Kahn's counters track. -/
def inCnt (edges : List Edge) (v : String) (P : List String) : Nat :=
  (edges.filter (fun e => e.dest == v && !(P.contains e.src))).length

/-- With nothing processed the counter is the plain in-degree. -/
theorem inCnt_nil (edges : List Edge) (v : String) :
    inCnt edges v [] = (edges.filter (fun e => e.dest == v)).length := by
  simp [inCnt]

/-- Processing `cur` removes exactly the edges from `cur` out of every
counter. -/
theorem inCnt_split (edges : List Edge) (v cur : String) (P : List String)
    (hcur : cur ∉ P) :
    inCnt edges v P = inCnt edges v (P ++ [cur]) + (adjOf edges cur).count v := by
  induction edges with
  | nil => simp [inCnt, adjOf]
  | cons e es ih =>
      have hL : inCnt (e :: es) v P =
          inCnt es v P + (if e.dest = v ∧ e.src ∉ P then 1 else 0) := by
        by_cases h1 : e.dest = v <;> by_cases h2 : e.src ∈ P <;>
          simp [inCnt, List.filter_cons, h1, h2, List.contains, List.elem_eq_mem]
      have hR : inCnt (e :: es) v (P ++ [cur]) =
          inCnt es v (P ++ [cur]) +
            (if e.dest = v ∧ e.src ∉ P ∧ e.src ≠ cur then 1 else 0) := by
        by_cases h1 : e.dest = v <;> by_cases h2 : e.src ∈ P <;>
          by_cases h3 : e.src = cur <;>
          simp [inCnt, List.filter_cons, h1, h2, h3, List.contains,
            List.elem_eq_mem]
      have hA : (adjOf (e :: es) cur).count v =
          (adjOf es cur).count v + (if e.src = cur ∧ e.dest = v then 1 else 0) := by
        by_cases h1 : e.src = cur <;> by_cases h2 : e.dest = v <;>
          simp [adjOf, List.filter_cons, List.count_cons, h1, h2]
      rw [hL, hR, hA, ih]
      by_cases h3 : e.src = cur
      · have h2 : e.src ∉ P := fun hm => hcur (h3 ▸ hm)
        by_cases h1 : e.dest = v <;> simp [h1, h2, h3, hcur] <;> omega
      · by_cases h1 : e.dest = v <;> by_cases h2 : e.src ∈ P <;>
          simp [h1, h2, h3, hcur] <;> omega

/-- Membership in the initial ready queue: known id with counter zero. -/
theorem q0_mem (ind : List (String × Nat))
    (hnd : (ind.map Prod.fst).Nodup) (v : String) :
    v ∈ (ind.filter (fun kv => kv.2 == 0)).map Prod.fst ↔
      (v ∈ ind.map Prod.fst ∧ degGet ind v = 0) := by
  induction ind with
  | nil => simp [degGet]
  | cons p rest ih =>
      obtain ⟨k, n⟩ := p
      simp only [List.map_cons, List.nodup_cons] at hnd
      have hv' : ∀ h : ¬k = v, ¬v = k := fun h hh => h hh.symm
      by_cases hn : n = 0
      · by_cases hv : k = v
        · subst hv
          simp [List.filter_cons, hn, degGet]
        · simp [List.filter_cons, hn, degGet, hv, hv' hv, ih hnd.2]
      · have hnb : (n == 0) = false := by simpa using hn
        by_cases hv : k = v
        · subst hv
          simp only [List.filter_cons, hnb, Bool.false_eq_true, if_false,
            List.map_cons, List.mem_cons, degGet, if_pos rfl]
          constructor
          · intro h
            obtain ⟨q, hq, hfst⟩ := List.mem_map.mp h
            exact absurd (hfst ▸ List.mem_map_of_mem Prod.fst
              (List.mem_of_mem_filter hq)) hnd.1
          · rintro ⟨_, hdeg⟩
            exact absurd hdeg hn
        · simp [List.filter_cons, hnb, degGet, hv, hv' hv, ih hnd.2]

/-- The initial ready queue has no duplicates when the key list has
none. -/
theorem q0_nodup (ind : List (String × Nat))
    (hnd : (ind.map Prod.fst).Nodup) :
    ((ind.filter (fun kv => kv.2 == 0)).map Prod.fst).Nodup :=
  ((List.filter_sublist ind).map Prod.fst).nodup hnd

/-- Topological-prefix property of the processed list: every edge into a
processed node comes from an earlier processed node. -/
def TopoPrefix (edges : List Edge) (P : List String) : Prop :=
  ∀ e ∈ edges, e.dest ∈ P → e.src ∈ P ∧ P.indexOf e.src < P.indexOf e.dest

/-- One neighbor-loop unfolding. -/
theorem processNb_cons (ind : List (String × Nat)) (q : List String)
    (nb : String) (nbs : List String) :
    processNb ind q (nb :: nbs) =
      processNb (degSet ind nb (degGet ind nb - 1))
        (if degGet ind nb = 1 then q ++ [nb] else q) nbs := rfl

/-- Specification of the neighbor loop: counters drop to the processed
in-count, keys are preserved, and the ready queue stays a duplicate-free
enumeration of the unprocessed nodes whose counter is zero. -/
theorem processNb_spec (ids : List String) (edges : List Edge)
    (P : List String) :
    ∀ (nbs : List String) (ind : List (String × Nat)) (q : List String),
      ind.map Prod.fst = ids →
      (∀ v, degGet ind v = inCnt edges v P + nbs.count v) →
      (∀ nb ∈ nbs, nb ∈ ids ∧ nb ∉ P) →
      q.Nodup →
      (∀ v, v ∈ q ↔ (v ∈ ids ∧ v ∉ P ∧ degGet ind v = 0)) →
      ((processNb ind q nbs).1.map Prod.fst = ids ∧
       (∀ v, degGet (processNb ind q nbs).1 v = inCnt edges v P) ∧
       (processNb ind q nbs).2.Nodup ∧
       (∀ v, v ∈ (processNb ind q nbs).2 ↔
         (v ∈ ids ∧ v ∉ P ∧ degGet (processNb ind q nbs).1 v = 0))) := by
  intro nbs
  induction nbs with
  | nil =>
      intro ind q hkeys hdeg hnb hqnd hq
      refine ⟨hkeys, ?_, hqnd, hq⟩
      intro v
      simpa using hdeg v
  | cons nb nbs' ih =>
      intro ind q hkeys hdeg hnb hqnd hq
      have hnbm := hnb nb (by simp)
      have hd : degGet ind nb = inCnt edges nb P + nbs'.count nb + 1 := by
        have := hdeg nb
        simpa [List.count_cons] using this
      rw [processNb_cons]
      set d := degGet ind nb with hdd
      have hge : 1 ≤ d := by omega
      refine ih (degSet ind nb (d - 1)) (if d = 1 then q ++ [nb] else q) ?_ ?_ ?_ ?_ ?_
      · rw [keys_degSet _ _ _ (by rw [hkeys]; exact hnbm.1), hkeys]
      · intro v
        rw [degGet_degSet]
        by_cases hv : nb = v
        · subst hv
          simp [List.count_cons]
          omega
        · have := hdeg v
          rw [if_neg hv]
          simpa [List.count_cons, hv] using this
      · exact fun x hx => hnb x (by simp [hx])
      · by_cases h1 : d = 1
        · rw [if_pos h1]
          have : nb ∉ q := fun hm => by
            have := (hq nb).mp hm
            omega
          simp [List.nodup_append, hqnd, this]
        · rw [if_neg h1]
          exact hqnd
      · intro v
        rw [degGet_degSet]
        by_cases hv : nb = v
        · subst hv
          by_cases h1 : d = 1
          · simp [if_pos h1, hnbm.1, hnbm.2]
            omega
          · have : nb ∉ q := fun hm => by
              have := (hq nb).mp hm
              omega
            simp [if_neg h1, this]
            intro _ _
            omega
        · have hvn : v ≠ nb := fun h => hv h.symm
          have hmq : v ∈ (if d = 1 then q ++ [nb] else q) ↔ v ∈ q := by
            by_cases h1 : d = 1 <;> simp [h1, hvn]
          rw [hmq, if_neg hv]
          exact hq v

/-- The loop variant never increases across one neighbor loop. -/
theorem processNb_measure :
    ∀ (nbs : List String) (ind : List (String × Nat)) (q : List String),
      degSum (processNb ind q nbs).1 + (processNb ind q nbs).2.length ≤
        degSum ind + q.length := by
  intro nbs
  induction nbs with
  | nil => intro ind q; simp [processNb]
  | cons nb nbs' ih =>
      intro ind q
      rw [processNb_cons]
      refine le_trans (ih _ _) ?_
      have h := degSum_degSet ind nb (degGet ind nb - 1)
      by_cases h1 : degGet ind nb = 1
      · simp only [if_pos h1]
        simp only [List.length_append, List.length_singleton]
        omega
      · simp only [if_neg h1]
        omega

/-- Loop invariant of Kahn's in-degree reduction: counters track in-counts
from unprocessed sources, the queue enumerates exactly the unprocessed
nodes with counter zero, and the processed list is a topologically sorted
duplicate-free prefix. -/
structure KahnInv (ids : List String) (edges : List Edge)
    (processed : List String) (ind : List (String × Nat))
    (q : List String) : Prop where
  keys : ind.map Prod.fst = ids
  deg : ∀ v, degGet ind v = inCnt edges v processed
  qnd : q.Nodup
  qmem : ∀ v, v ∈ q ↔ (v ∈ ids ∧ v ∉ processed ∧ degGet ind v = 0)
  pnd : processed.Nodup
  psub : ∀ v ∈ processed, v ∈ ids
  topo : TopoPrefix edges processed

/-- One iteration of the Kahn loop preserves the invariant, appending the
dequeued node to the processed prefix. -/
theorem kahn_step (ids : List String) (edges : List Edge)
    (hedges : ∀ e ∈ edges, e.src ∈ ids ∧ e.dest ∈ ids)
    (processed : List String) (ind : List (String × Nat))
    (cur : String) (rest : List String)
    (hinv : KahnInv ids edges processed ind (cur :: rest)) :
    KahnInv ids edges (processed ++ [cur])
      (processNb ind rest (adjOf edges cur)).1
      (processNb ind rest (adjOf edges cur)).2 := by
  have hcur := (hinv.qmem cur).mp (by simp)
  have hzero : inCnt edges cur processed = 0 := by
    rw [← hinv.deg]
    exact hcur.2.2
  have hsrc : ∀ e ∈ edges, e.dest = cur → e.src ∈ processed := by
    intro e he hd
    by_contra hns
    have hmem : e ∈ edges.filter
        (fun e => e.dest == cur && !(processed.contains e.src)) := by
      simp [List.mem_filter, he, hd, List.contains, List.elem_eq_mem, hns]
    have := List.length_pos.mpr (List.ne_nil_of_mem hmem)
    rw [inCnt] at hzero
    omega
  have hidxcur : (processed ++ [cur]).indexOf cur = processed.length := by
    rw [List.indexOf_append_of_not_mem hcur.2.1]
    simp
  have htopo : TopoPrefix edges (processed ++ [cur]) := by
    intro e he hdest
    rcases List.mem_append.mp hdest with hin | hin
    · have h := hinv.topo e he hin
      refine ⟨List.mem_append_left _ h.1, ?_⟩
      rw [List.indexOf_append_of_mem h.1, List.indexOf_append_of_mem hin]
      exact h.2
    · have hdc : e.dest = cur := by simpa using hin
      have hs := hsrc e he hdc
      refine ⟨List.mem_append_left _ hs, ?_⟩
      rw [List.indexOf_append_of_mem hs, hdc, hidxcur]
      exact List.indexOf_lt_length.mpr hs
  have hadj : ∀ nb ∈ adjOf edges cur, nb ∈ ids ∧ nb ∉ processed ++ [cur] := by
    intro nb hnb
    simp only [adjOf, List.mem_map, List.mem_filter] at hnb
    obtain ⟨e, ⟨he, hsrceq⟩, hdesteq⟩ := hnb
    have hsrceq' : e.src = cur := by simpa using hsrceq
    refine ⟨hdesteq ▸ (hedges e he).2, ?_⟩
    intro hmem
    have h2 := htopo e he (by rw [hdesteq]; exact hmem)
    have hlt := h2.2
    rw [hsrceq', hidxcur, hdesteq] at hlt
    have hub : (processed ++ [cur]).indexOf nb < (processed ++ [cur]).length :=
      List.indexOf_lt_length.mpr hmem
    simp only [List.length_append, List.length_singleton] at hub
    omega
  have hdeg' : ∀ v, degGet ind v =
      inCnt edges v (processed ++ [cur]) + (adjOf edges cur).count v := by
    intro v
    rw [hinv.deg v, inCnt_split edges v cur processed hcur.2.1]
  have hrest_nd : rest.Nodup := (List.nodup_cons.mp hinv.qnd).2
  have hrest : ∀ v, v ∈ rest ↔
      (v ∈ ids ∧ v ∉ processed ++ [cur] ∧ degGet ind v = 0) := by
    intro v
    constructor
    · intro hm
      have h := (hinv.qmem v).mp (by simp [hm])
      refine ⟨h.1, ?_, h.2.2⟩
      intro hmem
      rcases List.mem_append.mp hmem with hp | hp
      · exact h.2.1 hp
      · have hvc : v = cur := by simpa using hp
        subst hvc
        exact (List.nodup_cons.mp hinv.qnd).1 hm
    · rintro ⟨h1, h2, h3⟩
      have h2p : v ∉ processed := fun hp => h2 (List.mem_append_left _ hp)
      have h2c : v ≠ cur := fun hc => h2 (by simp [hc])
      have := (hinv.qmem v).mpr ⟨h1, h2p, h3⟩
      rcases List.mem_cons.mp this with h | h
      · exact absurd h h2c
      · exact h
  obtain ⟨k1, k2, k3, k4⟩ := processNb_spec ids edges (processed ++ [cur])
    (adjOf edges cur) ind rest hinv.keys hdeg' hadj hrest_nd hrest
  refine ⟨k1, k2, k3, k4, ?_, ?_, htopo⟩
  · simp [List.nodup_append, hinv.pnd, hcur.2.1]
  · intro v hv
    rcases List.mem_append.mp hv with h | h
    · exact hinv.psub v h
    · have : v = cur := by simpa using h
      exact this ▸ hcur.1

/-- Running the Kahn loop from an invariant state with enough fuel drains
the queue and returns the length of a final processed list that still
satisfies the invariant. -/
theorem kahnLoopF_spec (ids : List String) (edges : List Edge)
    (hedges : ∀ e ∈ edges, e.src ∈ ids ∧ e.dest ∈ ids) :
    ∀ (fuel : Nat) (ind : List (String × Nat)) (q : List String)
      (processed : List String),
      degSum ind + q.length < fuel →
      KahnInv ids edges processed ind q →
      ∃ (pF : List String) (indF : List (String × Nat)),
        KahnInv ids edges pF indF [] ∧
        kahnLoopF edges fuel ind q processed.length = pF.length := by
  intro fuel
  induction fuel with
  | zero => intro ind q processed h; omega
  | succ fuel ih =>
      intro ind q processed hm hinv
      match q with
      | [] => exact ⟨processed, ind, hinv, rfl⟩
      | cur :: rest =>
          have hstep := kahn_step ids edges hedges processed ind cur rest hinv
          have hmeas : degSum (processNb ind rest (adjOf edges cur)).1 +
              (processNb ind rest (adjOf edges cur)).2.length < fuel := by
            have := processNb_measure (adjOf edges cur) ind rest
            simp only [List.length_cons] at hm
            omega
          obtain ⟨pF, indF, hF, heq⟩ := ih _ _ (processed ++ [cur]) hmeas hstep
          refine ⟨pF, indF, hF, ?_⟩
          show kahnLoopF edges (fuel + 1) ind (cur :: rest) processed.length =
            pF.length
          rw [kahnLoopF]
          simpa [List.length_append] using heq

/-- The invariant holds at the start of the Kahn loop. -/
theorem kahn_init (ids : List String) (edges : List Edge)
    (hedges : ∀ e ∈ edges, e.src ∈ ids ∧ e.dest ∈ ids) (hnd : ids.Nodup) :
    KahnInv ids edges [] (initIndeg ids edges)
      (((initIndeg ids edges).filter (fun kv => kv.2 == 0)).map Prod.fst) := by
  have hkeys : (initIndeg ids edges).map Prod.fst = ids :=
    keys_initIndeg ids edges (fun e he => (hedges e he).2)
  have hknd : ((initIndeg ids edges).map Prod.fst).Nodup := by
    rw [hkeys]; exact hnd
  refine ⟨hkeys, ?_, q0_nodup _ hknd, ?_, List.nodup_nil, by simp, ?_⟩
  · intro v
    rw [degGet_initIndeg, inCnt_nil]
  · intro v
    rw [q0_mem _ hknd v, hkeys]
    simp
  · intro e _ h
    simp at h

/-- The visited count of `_validate_workflow` is the length of a final
processed list satisfying the invariant with an empty queue. -/
theorem kahnVisited_spec (wf : Workflow)
    (hnd : (wf.nodes.map (·.id)).Nodup)
    (hedges : ∀ e ∈ wf.edges,
      e.src ∈ wf.nodes.map (·.id) ∧ e.dest ∈ wf.nodes.map (·.id)) :
    ∃ (pF : List String) (indF : List (String × Nat)),
      KahnInv (wf.nodes.map (·.id)) wf.edges pF indF [] ∧
      kahnVisited wf = pF.length := by
  have huq : uniqueKeys (wf.nodes.map (·.id)) = wf.nodes.map (·.id) :=
    uniqueKeys_of_nodup _ hnd
  have hinit := kahn_init (wf.nodes.map (·.id)) wf.edges hedges hnd
  obtain ⟨pF, indF, hF, heq⟩ := kahnLoopF_spec (wf.nodes.map (·.id)) wf.edges
    hedges
    (degSum (initIndeg (wf.nodes.map (·.id)) wf.edges) +
      (((initIndeg (wf.nodes.map (·.id)) wf.edges).filter
        (fun kv => kv.2 == 0)).map Prod.fst).length + 1)
    (initIndeg (wf.nodes.map (·.id)) wf.edges)
    (((initIndeg (wf.nodes.map (·.id)) wf.edges).filter
      (fun kv => kv.2 == 0)).map Prod.fst)
    [] (by omega) hinit
  refine ⟨pF, indF, hF, ?_⟩
  rw [← heq]
  simp only [kahnVisited, huq, List.length_nil]

/-- Along an edge chain whose destinations all fall in a topologically
ordered prefix, the position strictly increases from the start to the last
element. -/
theorem chain_indexOf_lt (edges : List Edge) (P : List String)
    (htopo : TopoPrefix edges P) (hin : ∀ e ∈ edges, e.dest ∈ P) :
    ∀ (l : List String) (v w : String), List.Chain (isEdgeOf edges) v l →
      l.getLast? = some w → P.indexOf v < P.indexOf w := by
  intro l
  induction l with
  | nil =>
      intro v w _ h2
      simp at h2
  | cons a l ih =>
      intro v w h1 h2
      rw [List.chain_cons] at h1
      obtain ⟨⟨e, he, hs, hd⟩, hch⟩ := h1
      have hstep := htopo e he (by rw [hd]; exact hd ▸ hin e he)
      rw [hs, hd] at hstep
      cases l with
      | nil =>
          simp at h2
          subst h2
          exact hstep.2
      | cons b l2 =>
          rw [List.getLast?_cons_cons] at h2
          exact lt_trans hstep.2 (ih a w hch h2)

/-- A duplicate-free sublist of a duplicate-free list with the same length
contains every element of the list. -/
theorem processed_complete (ids pF : List String) (hnd : ids.Nodup)
    (hpnd : pF.Nodup) (hsub : ∀ v ∈ pF, v ∈ ids)
    (hlen : pF.length = ids.length) : ∀ v ∈ ids, v ∈ pF := by
  have h1 : pF.toFinset ⊆ ids.toFinset := fun x hx =>
    List.mem_toFinset.2 (hsub x (List.mem_toFinset.1 hx))
  have h2 : ids.toFinset.card ≤ pF.toFinset.card := by
    rw [List.toFinset_card_of_nodup hnd, List.toFinset_card_of_nodup hpnd, hlen]
  have heq := Finset.eq_of_subset_of_card_le h1 h2
  intro v hv
  exact List.mem_toFinset.1 (heq ▸ List.mem_toFinset.2 hv)

/-- If the topological prefix covers every node then the edge list has no
cycle. -/
theorem no_cycle_of_complete (ids : List String) (edges : List Edge)
    (pF : List String) (htopo : TopoPrefix edges pF)
    (hedges : ∀ e ∈ edges, e.dest ∈ ids)
    (hall : ∀ v ∈ ids, v ∈ pF) : ¬ hasCycle edges := by
  rintro ⟨v, l, _, hlast, hchain⟩
  have hin : ∀ e ∈ edges, e.dest ∈ pF := fun e he => hall _ (hedges e he)
  exact lt_irrefl _ (chain_indexOf_lt edges pF htopo hin l v v hchain hlast)

/-- When the queue is drained, every unprocessed node of the graph has an
unprocessed predecessor. -/
theorem unprocessed_pred (ids : List String) (edges : List Edge)
    (pF : List String) (ind : List (String × Nat))
    (hedges : ∀ e ∈ edges, e.src ∈ ids)
    (inv : KahnInv ids edges pF ind []) :
    ∀ v, v ∈ ids → v ∉ pF → ∃ u, (u ∈ ids ∧ u ∉ pF) ∧ isEdgeOf edges u v := by
  intro v hv hnp
  have hdeg : degGet ind v ≠ 0 := by
    intro h0
    have : v ∈ ([] : List String) := (inv.qmem v).2 ⟨hv, hnp, h0⟩
    simp at this
  rw [inv.deg] at hdeg
  unfold inCnt at hdeg
  have hne : edges.filter (fun e => e.dest == v && !(pF.contains e.src)) ≠ [] := by
    intro h
    rw [h] at hdeg
    simp at hdeg
  obtain ⟨e, he⟩ := List.exists_mem_of_ne_nil _ hne
  obtain ⟨he1, he2⟩ := List.mem_filter.1 he
  simp only [Bool.and_eq_true, beq_iff_eq, Bool.not_eq_true',
    List.elem_eq_mem, decide_eq_false_iff_not] at he2
  exact ⟨e.src, ⟨hedges e he1, he2.2⟩, e, he1, rfl, he2.1⟩

/-- Backward walk along a predecessor sequence: element `t` of the list is
the value of the sequence at `k + m - 1 - t`. -/
def descList (y : Nat → String) (k m : Nat) : List String :=
  (List.range m).map (fun t => y (k + m - 1 - t))

/-- Unfolding the backward walk by one step. -/
theorem descList_succ (y : Nat → String) (k m : Nat) :
    descList y k (m + 1) = y (k + m) :: descList y k m := by
  unfold descList
  rw [List.range_succ_eq_map, List.map_cons, List.map_map]
  refine congrArg₂ List.cons ?_ ?_
  · congr 1
  · refine List.map_congr_left ?_
    intro t _
    simp only [Function.comp_apply]
    congr 1
    omega

/-- The backward walk is nonempty when its length is positive. -/
theorem descList_ne_nil (y : Nat → String) (k m : Nat) (hm : 0 < m) :
    descList y k m ≠ [] := by
  cases m with
  | zero => omega
  | succ m => rw [descList_succ]; simp

/-- The backward walk ends at the value of the sequence at `k`. -/
theorem descList_getLast (y : Nat → String) (k m : Nat) (hm : 0 < m) :
    (descList y k m).getLast? = some (y k) := by
  cases m with
  | zero => omega
  | succ m =>
      unfold descList
      rw [List.range_succ, List.map_append]
      simp only [List.map_cons, List.map_nil, List.getLast?_concat]
      congr 2
      omega

/-- The backward walk is a chain for the edge relation whenever consecutive
sequence values are edges. -/
theorem descList_chain (edges : List Edge) (y : Nat → String)
    (hyedge : ∀ n, isEdgeOf edges (y (n + 1)) (y n)) :
    ∀ (m k : Nat), List.Chain (isEdgeOf edges) (y (k + m)) (descList y k m) := by
  intro m
  induction m with
  | zero =>
      intro k
      unfold descList
      simp
  | succ m ih =>
      intro k
      rw [descList_succ, List.chain_cons]
      exact ⟨hyedge (k + m), ih k⟩

/-- A sequence walking edges backwards that repeats a value yields a cycle. -/
theorem cycle_of_rep (edges : List Edge) (y : Nat → String)
    (hyedge : ∀ n, isEdgeOf edges (y (n + 1)) (y n))
    (i j : Nat) (hij : i < j) (heq : y i = y j) : hasCycle edges := by
  refine ⟨y j, descList y i (j - i), descList_ne_nil y i (j - i) (by omega), ?_, ?_⟩
  · rw [descList_getLast y i (j - i) (by omega), heq]
  · have hch := descList_chain edges y hyedge (j - i) i
    have hj : i + (j - i) = j := by omega
    rw [hj] at hch
    exact hch

/-- If the Kahn loop drains its queue while some node remains unprocessed,
the edge list has a cycle. -/
theorem cycle_of_incomplete (ids : List String) (edges : List Edge)
    (pF : List String) (ind : List (String × Nat)) (hnd : ids.Nodup)
    (hedges : ∀ e ∈ edges, e.src ∈ ids)
    (inv : KahnInv ids edges pF ind [])
    (hlt : pF.length ≠ ids.length) : hasCycle edges := by
  have hle : pF.length ≤ ids.length := by
    have h1 : pF.toFinset ⊆ ids.toFinset := fun x hx =>
      List.mem_toFinset.2 (inv.psub x (List.mem_toFinset.1 hx))
    have h2 := Finset.card_le_card h1
    rw [List.toFinset_card_of_nodup inv.pnd, List.toFinset_card_of_nodup hnd] at h2
    exact h2
  have hex : ∃ v0, v0 ∈ ids ∧ v0 ∉ pF := by
    by_contra hno
    push_neg at hno
    have h1 : ids.toFinset ⊆ pF.toFinset := fun x hx =>
      List.mem_toFinset.2 (hno x (List.mem_toFinset.1 hx))
    have h2 := Finset.card_le_card h1
    rw [List.toFinset_card_of_nodup inv.pnd, List.toFinset_card_of_nodup hnd] at h2
    omega
  obtain ⟨v0, hv0⟩ := hex
  have hpred : ∀ (r : {v : String // v ∈ ids ∧ v ∉ pF}),
      ∃ u, (u ∈ ids ∧ u ∉ pF) ∧ isEdgeOf edges u r.val :=
    fun r => unprocessed_pred ids edges pF ind hedges inv r.val r.2.1 r.2.2
  classical
  let g : {v : String // v ∈ ids ∧ v ∉ pF} → {v : String // v ∈ ids ∧ v ∉ pF} :=
    fun r => ⟨(hpred r).choose, (hpred r).choose_spec.1⟩
  have hg : ∀ r, isEdgeOf edges (g r).val r.val := fun r => (hpred r).choose_spec.2
  let x : Nat → {v : String // v ∈ ids ∧ v ∉ pF} := fun n => g^[n] ⟨v0, hv0⟩
  let y : Nat → String := fun n => (x n).val
  have hyedge : ∀ n, isEdgeOf edges (y (n + 1)) (y n) := by
    intro n
    have hx : x (n + 1) = g (x n) := Function.iterate_succ_apply' g n _
    show isEdgeOf edges (x (n + 1)).val (x n).val
    rw [hx]
    exact hg (x n)
  have hymem : ∀ n, y n ∈ ids := fun n => (x n).2.1
  have hcard : (ids.toFinset).card < (Finset.range (ids.length + 1)).card := by
    rw [Finset.card_range]
    have := ids.toFinset_card_le
    omega
  obtain ⟨i, _, j, _, hij, hyij⟩ :=
    Finset.exists_ne_map_eq_of_card_lt_of_maps_to hcard
      (fun n _ => List.mem_toFinset.2 (hymem n))
  rcases lt_trichotomy i j with h | h | h
  · exact cycle_of_rep edges y hyedge i j h hyij
  · exact absurd h hij
  · exact cycle_of_rep edges y hyedge j i h hyij.symm

/-- Under distinct node ids and validated edge endpoints, the Kahn visited
count reaches the node count exactly when the edge list is acyclic. -/
theorem kahn_iff_acyclic (wf : Workflow)
    (hnd : (wf.nodes.map (·.id)).Nodup)
    (hedges : ∀ e ∈ wf.edges,
      e.src ∈ wf.nodes.map (·.id) ∧ e.dest ∈ wf.nodes.map (·.id)) :
    kahnVisited wf = wf.nodes.length ↔ ¬ hasCycle wf.edges := by
  obtain ⟨pF, indF, inv, hvis⟩ := kahnVisited_spec wf hnd hedges
  have hlen : (wf.nodes.map (·.id)).length = wf.nodes.length := by simp
  constructor
  · intro h
    exact no_cycle_of_complete (wf.nodes.map (·.id)) wf.edges pF inv.topo
      (fun e he => (hedges e he).2)
      (processed_complete _ _ hnd inv.pnd inv.psub (by omega))
  · intro hnc
    by_contra h
    exact hnc (cycle_of_incomplete _ _ _ _ hnd
      (fun e he => (hedges e he).1) inv (by omega))

/-- An empty edge list admits no cycle. -/
theorem hasCycle_nil_false : ¬ hasCycle [] := by
  rintro ⟨v, l, hne, _, hchain⟩
  cases l with
  | nil => exact hne rfl
  | cons a l =>
      rw [List.chain_cons] at hchain
      obtain ⟨⟨e, he, _⟩, _⟩ := hchain
      simp at he

/-- C5: for a parsed workflow specification with all required fields and
distinct node ids, an edge endpoint outside the node-id set makes
`load_workflow` fail with a message containing "unknown node"; with all
endpoints known, it fails with the "Cycle detected in Workflow DAG."
message iff the edges form a directed cycle, and on an acyclic graph it
returns the compiled workflow. -/
theorem C5_compiler_thm (raw : RawWorkflow)
    (hnd : ((buildWorkflow raw).nodes.map (·.id)).Nodup) :
    ((∃ e ∈ (buildWorkflow raw).edges,
        e.src ∉ (buildWorkflow raw).nodes.map (·.id) ∨
        e.dest ∉ (buildWorkflow raw).nodes.map (·.id)) →
      ∃ msg, load_workflow raw = .error msg ∧
        pyContains msg "unknown node" = true) ∧
    ((∀ e ∈ (buildWorkflow raw).edges,
        e.src ∈ (buildWorkflow raw).nodes.map (·.id) ∧
        e.dest ∈ (buildWorkflow raw).nodes.map (·.id)) →
      (load_workflow raw = .error "Cycle detected in Workflow DAG." ↔
        hasCycle (buildWorkflow raw).edges) ∧
      (¬ hasCycle (buildWorkflow raw).edges →
        load_workflow raw = .ok (buildWorkflow raw))) := by
  constructor
  · rintro ⟨e, he, hor⟩
    have hsome : ∃ x ∈ (buildWorkflow raw).edges,
        (!(((buildWorkflow raw).nodes.map (·.id)).contains x.src &&
           ((buildWorkflow raw).nodes.map (·.id)).contains x.dest)) = true := by
      refine ⟨e, he, ?_⟩
      rcases hor with h | h <;> simp [List.elem_eq_mem, h]
    rw [← List.find?_isSome] at hsome
    obtain ⟨e2, hfind⟩ := Option.isSome_iff_exists.1 hsome
    refine ⟨"Edge references unknown node: " ++ e2.src ++ " -> " ++ e2.dest,
      ?_, ?_⟩
    · simp only [load_workflow, validate_workflow, hfind]
    · have hsub : ("unknown node").data <:+:
          ("Edge references unknown node: ").data := by decide
      have hinf : ("unknown node").data <:+:
          ("Edge references unknown node: " ++ e2.src ++ " -> " ++ e2.dest).data := by
        simp only [String.data_append, ← List.append_assoc]
        refine hsub.trans ?_
        refine List.IsPrefix.isInfix ?_
        simp only [List.append_assoc]
        exact List.prefix_append _ _
      unfold pyContains
      exact decide_eq_true hinf
  · intro hall
    have hfindn : (buildWorkflow raw).edges.find? (fun e =>
        !(((buildWorkflow raw).nodes.map (·.id)).contains e.src &&
          ((buildWorkflow raw).nodes.map (·.id)).contains e.dest)) =
        Option.none := by
      rw [List.find?_eq_none]
      intro x hx
      simp [List.elem_eq_mem, (hall x hx).1, (hall x hx).2]
    have hiff := kahn_iff_acyclic (buildWorkflow raw) hnd hall
    by_cases hv : kahnVisited (buildWorkflow raw) =
        (buildWorkflow raw).nodes.length
    · have hok : load_workflow raw = .ok (buildWorkflow raw) := by
        simp only [load_workflow, validate_workflow, hfindn]
        simp [hv]
      constructor
      · rw [hok]
        constructor
        · intro h
          exact absurd h (by simp)
        · intro hc
          exact absurd hc (hiff.1 hv)
      · intro _
        exact hok
    · have herr : load_workflow raw = .error "Cycle detected in Workflow DAG." := by
        simp only [load_workflow, validate_workflow, hfindn]
        simp [hv]
      have hc : hasCycle (buildWorkflow raw).edges := by
        by_contra hnc
        exact hv (hiff.2 hnc)
      constructor
      · rw [herr]
        simp [hc]
      · intro hnc
        exact absurd hc hnc

/-- Parsed workflow with an edge to an undeclared node. -/
def rawBad : RawWorkflow :=
  { name := "w"
    inputs := []
    nodes := [{ id := "a", type := "task" }]
    edges := [{ fromNode := "a", toNode := "b" }]
    success_criteria := []
    failure_conditions := [] }

/-- Parsed workflow whose two edges form a directed cycle. -/
def rawCyc : RawWorkflow :=
  { name := "w"
    inputs := []
    nodes := [{ id := "a", type := "task" }, { id := "b", type := "task" }]
    edges := [{ fromNode := "a", toNode := "b" },
              { fromNode := "b", toNode := "a" }]
    success_criteria := []
    failure_conditions := [] }

/-- Parsed acyclic workflow with one edge. -/
def rawAcyc : RawWorkflow :=
  { name := "w"
    inputs := []
    nodes := [{ id := "a", type := "task" }, { id := "b", type := "task" }]
    edges := [{ fromNode := "a", toNode := "b" }]
    success_criteria := []
    failure_conditions := [] }

/-- Parsed workflow with two nodes sharing the id "a" and no edges. -/
def rawDup : RawWorkflow :=
  { name := "w"
    inputs := []
    nodes := [{ id := "a", type := "task" }, { id := "a", type := "task" }]
    edges := []
    success_criteria := []
    failure_conditions := [] }

/-- The one-edge graph of `rawAcyc` has no cycle. -/
theorem rawAcyc_no_cycle :
    ¬ hasCycle (buildWorkflow rawAcyc).edges := by
  rintro ⟨v, l, hne, hlast, hchain⟩
  cases l with
  | nil => exact hne rfl
  | cons c l2 =>
      rw [List.chain_cons] at hchain
      obtain ⟨⟨e1, he1, hs1, hd1⟩, hch2⟩ := hchain
      simp only [buildWorkflow, buildEdge, rawAcyc, List.map_cons, List.map_nil,
        List.mem_singleton] at he1
      cases l2 with
      | nil =>
          simp only [List.getLast?_singleton, Option.some_inj] at hlast
          subst hlast
          rw [he1] at hs1 hd1
          rw [← hs1] at hd1
          simp at hd1
      | cons d l3 =>
          rw [List.chain_cons] at hch2
          obtain ⟨⟨e2, he2, hs2, hd2⟩, _⟩ := hch2
          simp only [buildWorkflow, buildEdge, rawAcyc, List.map_cons,
            List.map_nil, List.mem_singleton] at he2
          rw [he1] at hd1
          rw [he2] at hs2
          rw [← hs2] at hd1
          simp at hd1

/-- C5 counterexample: a parsed workflow with a duplicated node id and no
edges is rejected with the cycle message even though its edge list has no
cycle, because the node-id dictionary deduplicates while the count compares
against `len(workflow.nodes)`. -/
theorem C5_counterexample :
    load_workflow rawDup = .error "Cycle detected in Workflow DAG." ∧
    ¬ hasCycle (buildWorkflow rawDup).edges :=
  ⟨rfl, hasCycle_nil_false⟩

/-- C5 witness: the theorem applied to a concrete bad-edge workflow, a
concrete cyclic workflow and a concrete acyclic workflow. -/
theorem C5_compiler_witness :
    (∃ msg, load_workflow rawBad = .error msg ∧
      pyContains msg "unknown node" = true) ∧
    load_workflow rawCyc = .error "Cycle detected in Workflow DAG." ∧
    load_workflow rawAcyc = .ok (buildWorkflow rawAcyc) := by
  refine ⟨?_, ?_, ?_⟩
  · refine (C5_compiler_thm rawBad (by decide)).1 ?_
    refine ⟨⟨"a", "b", "true"⟩, by simp [buildWorkflow, buildEdge, rawBad], ?_⟩
    right
    decide
  · refine ((C5_compiler_thm rawCyc (by decide)).2 (by decide)).1.2 ?_
    refine ⟨"a", ["b", "a"], by simp, rfl, ?_⟩
    refine List.Chain.cons ⟨⟨"a", "b", "true"⟩, ?_, rfl, rfl⟩
      (List.Chain.cons ⟨⟨"b", "a", "true"⟩, ?_, rfl, rfl⟩ List.Chain.nil)
    · simp [buildWorkflow, buildEdge, rawCyc]
    · simp [buildWorkflow, buildEdge, rawCyc]
  · exact ((C5_compiler_thm rawAcyc (by decide)).2 (by decide)).2 rawAcyc_no_cycle

/-! ### Workflow executor (`src/workflow/executor.py`)

`run_workflow` initialises a context from the inputs, seeds the ready list
with the zero-in-degree nodes, then repeatedly pops a node, runs its agent,
merges the produced mapping into the context, asserts the node tests, marks
the node executed, and walks its outgoing edges: an edge whose guard
evaluates true against the updated context enqueues its destination
provided every incoming edge of that destination has an executed source.
The agent behaviour (`make_agent(node).execute(context)`) is a parameter
`produce` of the model. -/

/-- Mutable state of the while loop of `run_workflow`. -/
structure ExecState where
  ctx : List (String × PyObj)
  executed : List String
  ready : List Node

/-- Model of `_indegree`. -/
def indegree (wf : Workflow) (nid : String) : Nat :=
  (wf.edges.filter (fun e => e.dest == nid)).length

/-- Incoming edges of a node (`in_edges` adjacency entry). -/
def inEdges (wf : Workflow) (d : String) : List Edge :=
  wf.edges.filter (fun e => e.dest == d)

/-- Outgoing edges of a node (`out_edges` adjacency entry). -/
def outEdges (wf : Workflow) (s : String) : List Edge :=
  wf.edges.filter (fun e => e.src == s)

/-- Model of `_normalize`: textual replacement of "null" by "None". -/
def normalizeExpr (expr : String) : String :=
  pyReplace expr "null" "None"

/-- The per-node test assertions of the loop body. -/
def checkTests (nid : String) (ctx : List (String × PyObj)) :
    List String → Except String Unit
  | [] => .ok ()
  | t :: rest =>
      if evaluate_condition (normalizeExpr t) ctx then checkTests nid ctx rest
      else .error ("Test failed for node " ++ nid ++ ": " ++ t)

/-- Successor loop of the loop body: for each outgoing edge whose guard
holds in the updated context, look up the destination node and enqueue it
when all of its incoming edges have executed sources (`StopIteration`
models the exhausted `next` on a dangling edge). -/
def succStep (wf : Workflow) (executed : List String)
    (ctx : List (String × PyObj)) : List Edge → Except String (List Node)
  | [] => .ok []
  | e :: rest =>
      if evaluate_condition (normalizeExpr e.whenGuard) ctx then
        match wf.nodes.find? (fun n => n.id == e.dest) with
        | Option.none => .error "StopIteration"
        | some dest =>
            if (inEdges wf dest.id).all (fun p => executed.contains p.src) then
              match succStep wf executed ctx rest with
              | .error err => .error err
              | .ok r => .ok (dest :: r)
            else succStep wf executed ctx rest
      else succStep wf executed ctx rest

/-- One iteration of the while loop: pop the head of the ready list, skip
it when already executed, otherwise run the agent, merge its output into
the context, assert the tests, mark the node executed and append the
enqueued successors.  Also returns the list of nodes enqueued by this
iteration. -/
def stepNode (wf : Workflow)
    (produce : Node → List (String × PyObj) → List (String × PyObj))
    (st : ExecState) : Except String (ExecState × List Node) :=
  match st.ready with
  | [] => .ok (st, [])
  | node :: rest =>
      if st.executed.contains node.id then
        .ok ({ st with ready := rest }, [])
      else
        let ctx2 := dictMerge st.ctx (produce node st.ctx)
        match checkTests node.id ctx2 node.tests with
        | .error err => .error err
        | .ok _ =>
            let executed2 := st.executed ++ [node.id]
            match succStep wf executed2 ctx2 (outEdges wf node.id) with
            | .error err => .error err
            | .ok enq => .ok (⟨ctx2, executed2, rest ++ enq⟩, enq)

/-- The while loop of `run_workflow`, instrumented with a log pairing each
enqueued node with the loop state right after the enqueuing iteration. -/
def runLoopF (wf : Workflow)
    (produce : Node → List (String × PyObj) → List (String × PyObj)) :
    Nat → ExecState → List (ExecState × Node) →
    Except String (ExecState × List (ExecState × Node))
  | 0, st, log => .ok (st, log)
  | fuel + 1, st, log =>
      match st.ready with
      | [] => .ok (st, log)
      | _ :: _ =>
          match stepNode wf produce st with
          | .error err => .error err
          | .ok (st2, enq) =>
              runLoopF wf produce fuel st2 (log ++ enq.map (fun d => (st2, d)))

/-- Precondition assertions of `run_workflow`. -/
def checkPreconds (ctx : List (String × PyObj)) :
    List String → Except String Unit
  | [] => .ok ()
  | e :: rest =>
      if evaluate_condition e ctx then checkPreconds ctx rest
      else .error ("Precondition failed: " ++ e)

/-- Success-criteria assertions of `run_workflow`. -/
def checkSuccess (ctx : List (String × PyObj)) :
    List String → Except String Unit
  | [] => .ok ()
  | e :: rest =>
      if evaluate_condition e ctx then checkSuccess ctx rest
      else .error ("Success criteria failed: " ++ e)

/-- Failure-condition assertions of `run_workflow`. -/
def checkFailure (ctx : List (String × PyObj)) :
    List String → Except String Unit
  | [] => .ok ()
  | e :: rest =>
      if evaluate_condition e ctx then .error ("Failure condition met: " ++ e)
      else checkFailure ctx rest

/-- Model of `run_workflow`: the start timestamp and agent behaviour are
parameters; the loop runs on a fuel bounding the number of iterations. -/
def run_workflow (wf : Workflow)
    (produce : Node → List (String × PyObj) → List (String × PyObj))
    (startTs : PyObj) (inputs : List (String × PyObj)) :
    Except String (List (String × PyObj)) :=
  let ctx0 := dictMerge
    [("__start_ts", startTs), ("none", PyObj.none),
     ("true", PyObj.bool true), ("false", PyObj.bool false)] inputs
  let ready0 := wf.nodes.filter (fun n => indegree wf n.id == 0)
  match checkPreconds ctx0 wf.preconditions with
  | .error err => .error err
  | .ok _ =>
      match runLoopF wf produce
          ((wf.nodes.length + 1) * (wf.edges.length + 1) + wf.nodes.length + 1)
          ⟨ctx0, [], ready0⟩ [] with
      | .error err => .error err
      | .ok (stF, _) =>
          match checkSuccess stF.ctx wf.success_criteria with
          | .error err => .error err
          | .ok _ =>
              match checkFailure stF.ctx wf.failure_conditions with
              | .error err => .error err
              | .ok _ =>
                  .ok (wf.outputs.foldl (fun acc k =>
                    dictSet acc k ((dictGet stF.ctx k).getD PyObj.none)) [])

/-- An enqueue event is justified when some edge into the enqueued node had
its guard evaluate true against the context of the enqueuing iteration and
every incoming edge of the node has an executed source at that moment. -/
def goodEnqueue (wf : Workflow) (ev : ExecState × Node) : Prop :=
  (∃ e ∈ wf.edges, e.dest = ev.2.id ∧
    evaluate_condition (normalizeExpr e.whenGuard) ev.1.ctx = true) ∧
  ∀ p ∈ wf.edges, p.dest = ev.2.id → p.src ∈ ev.1.executed

/-- Every node returned by the successor loop is reached by an edge whose
guard held against the given context and has all of its incoming edge
sources among the executed nodes. -/
theorem succStep_good (wf : Workflow) (executed : List String)
    (ctx : List (String × PyObj)) :
    ∀ (es : List Edge), (∀ e ∈ es, e ∈ wf.edges) →
    ∀ (out : List Node), succStep wf executed ctx es = .ok out →
    ∀ d ∈ out,
      (∃ e ∈ wf.edges, e.dest = d.id ∧
        evaluate_condition (normalizeExpr e.whenGuard) ctx = true) ∧
      ∀ p ∈ wf.edges, p.dest = d.id → p.src ∈ executed := by
  intro es
  induction es with
  | nil =>
      intro _ out hout d hd
      simp only [succStep] at hout
      cases hout
      simp at hd
  | cons e rest ih =>
      intro hsub out hout d hd
      have hsub2 : ∀ x ∈ rest, x ∈ wf.edges := fun x hx => hsub x (by simp [hx])
      simp only [succStep] at hout
      by_cases hguard : evaluate_condition (normalizeExpr e.whenGuard) ctx = true
      · rw [if_pos hguard] at hout
        cases hfind : wf.nodes.find? (fun n => n.id == e.dest) with
        | none =>
            rw [hfind] at hout
            simp only [] at hout
            simp at hout
        | some dest =>
            rw [hfind] at hout
            simp only [] at hout
            by_cases hall : ((inEdges wf dest.id).all
                (fun p => executed.contains p.src)) = true
            · rw [if_pos hall] at hout
              cases hrec : succStep wf executed ctx rest with
              | error err =>
                  rw [hrec] at hout
                  simp only [] at hout
                  simp at hout
              | ok r =>
                  rw [hrec] at hout
                  simp only [] at hout
                  cases hout
                  rcases List.mem_cons.1 hd with hdd | hdr
                  · subst hdd
                    have hdid : d.id = e.dest := by
                      have := List.find?_some hfind
                      simpa using this
                    constructor
                    · exact ⟨e, hsub e (by simp), hdid.symm, hguard⟩
                    · intro p hp hpd
                      have hpin : p ∈ inEdges wf d.id := by
                        simp [inEdges, List.mem_filter, hp, hpd]
                      have := (List.all_eq_true.1 hall) p hpin
                      simpa [List.elem_eq_mem] using this
                  · exact ih hsub2 r hrec d hdr
            · rw [if_neg hall] at hout
              exact ih hsub2 out hout d hd
      · rw [if_neg hguard] at hout
        exact ih hsub2 out hout d hd

/-- Every node enqueued by one loop iteration satisfies, against the state
right after that iteration, the guard condition and the
all-predecessors-executed condition. -/
theorem stepNode_good (wf : Workflow)
    (produce : Node → List (String × PyObj) → List (String × PyObj))
    (st st2 : ExecState) (enq : List Node)
    (h : stepNode wf produce st = .ok (st2, enq)) :
    ∀ d ∈ enq, goodEnqueue wf (st2, d) := by
  intro d hd
  unfold stepNode at h
  cases hready : st.ready with
  | nil =>
      rw [hready] at h
      simp only [] at h
      cases h
      simp at hd
  | cons node rest =>
      rw [hready] at h
      simp only [] at h
      by_cases hex : st.executed.contains node.id = true
      · rw [if_pos hex] at h
        cases h
        simp at hd
      · rw [if_neg hex] at h
        cases hct : checkTests node.id
            (dictMerge st.ctx (produce node st.ctx)) node.tests with
        | error err =>
            rw [hct] at h
            simp only [] at h
            simp at h
        | ok u =>
            rw [hct] at h
            simp only [] at h
            cases hss : succStep wf (st.executed ++ [node.id])
                (dictMerge st.ctx (produce node st.ctx))
                (outEdges wf node.id) with
            | error err =>
                rw [hss] at h
                simp only [] at h
                simp at h
            | ok enq2 =>
                rw [hss] at h
                simp only [] at h
                cases h
                have hgood := succStep_good wf (st.executed ++ [node.id])
                  (dictMerge st.ctx (produce node st.ctx))
                  (outEdges wf node.id)
                  (fun e he => (List.filter_sublist _).subset he)
                  _ hss d hd
                exact ⟨hgood.1, hgood.2⟩

/-- Every event appended to the log by the instrumented loop is a justified
enqueue. -/
theorem runLoopF_good (wf : Workflow)
    (produce : Node → List (String × PyObj) → List (String × PyObj)) :
    ∀ (fuel : Nat) (st : ExecState) (log0 : List (ExecState × Node))
      (stF : ExecState) (log : List (ExecState × Node)),
      runLoopF wf produce fuel st log0 = .ok (stF, log) →
      (∀ ev ∈ log0, goodEnqueue wf ev) →
      ∀ ev ∈ log, goodEnqueue wf ev := by
  intro fuel
  induction fuel with
  | zero =>
      intro st log0 stF log h h0
      cases h
      exact h0
  | succ fuel ih =>
      intro st log0 stF log h h0
      unfold runLoopF at h
      cases hready : st.ready with
      | nil =>
          rw [hready] at h
          simp only [] at h
          cases h
          exact h0
      | cons node rest =>
          rw [hready] at h
          simp only [] at h
          cases hstep : stepNode wf produce st with
          | error err =>
              rw [hstep] at h
              simp only [] at h
              simp at h
          | ok p =>
              obtain ⟨st2, enq⟩ := p
              rw [hstep] at h
              simp only [] at h
              refine ih st2 (log0 ++ enq.map (fun d => (st2, d))) stF log h ?_
              intro ev hev
              rcases List.mem_append.1 hev with h1 | h2
              · exact h0 ev h1
              · obtain ⟨dd, hdd, rfl⟩ := List.mem_map.1 h2
                exact stepNode_good wf produce st st2 enq hstep dd hdd

/-- C7: during the while loop of `run_workflow`, every node enqueued via an
outgoing edge of a just-executed node is enqueued through an edge whose
guard evaluates true against the context updated by that node, and only
when every declared predecessor (source of an incoming edge) of the
enqueued node has already executed at that moment. -/
theorem C7_executor_thm (wf : Workflow)
    (produce : Node → List (String × PyObj) → List (String × PyObj))
    (fuel : Nat) (st0 stF : ExecState) (log : List (ExecState × Node))
    (hrun : runLoopF wf produce fuel st0 [] = .ok (stF, log)) :
    ∀ ev ∈ log,
      (∃ e ∈ wf.edges, e.dest = ev.2.id ∧
        evaluate_condition (normalizeExpr e.whenGuard) ev.1.ctx = true) ∧
      ∀ p ∈ wf.edges, p.dest = ev.2.id → p.src ∈ ev.1.executed :=
  fun ev hev =>
    runLoopF_good wf produce fuel st0 [] stF log hrun (by simp) ev hev

/-- First node of the witness workflow. -/
def nodeAW : Node := { id := "a", type := "task" }

/-- Second node of the witness workflow. -/
def nodeBW : Node := { id := "b", type := "task" }

/-- Two-node witness workflow with one edge from "a" to "b". -/
def wfW : Workflow :=
  { name := "w"
    nodes := [nodeAW, nodeBW]
    edges := [{ src := "a", dest := "b" }] }

/-- Witness agent behaviour: each node writes its id into the context. -/
def prodW : Node → List (String × PyObj) → List (String × PyObj) :=
  fun n _ => [(n.id, PyObj.bool true)]

/-- Initial loop state of the witness run. -/
def st0W : ExecState := ⟨[], [], [nodeAW]⟩

/-- Loop state right after executing node "a" in the witness run. -/
def st1W : ExecState := ⟨[("a", PyObj.bool true)], ["a"], [nodeBW]⟩

/-- Final loop state of the witness run. -/
def stFW : ExecState :=
  ⟨[("a", PyObj.bool true), ("b", PyObj.bool true)], ["a", "b"], []⟩

/-- C7 witness: in the concrete two-node run, the single logged enqueue of
node "b" happened through the guard-true edge from "a" with "a" already
executed. -/
theorem C7_executor_witness :
    (∃ e ∈ wfW.edges, e.dest = nodeBW.id ∧
      evaluate_condition (normalizeExpr e.whenGuard) st1W.ctx = true) ∧
    ∀ p ∈ wfW.edges, p.dest = nodeBW.id → p.src ∈ st1W.executed :=
  C7_executor_thm wfW prodW 3 st0W stFW [(st1W, nodeBW)] rfl
    (st1W, nodeBW) (List.mem_singleton.2 rfl)
